import Mathlib

/-!
Verification of the incremental NNUE accumulator subsystem
(src/nnue/nnue_accumulator.cpp).

The development shallowly embeds the accumulator stack, the incremental
update kernel, the refresh kernel and the per-king-square refresh cache.
Machine integers are modelled by integers modulo 2^16 (dense accumulator
entries and weights) and modulo 2^32 (PSQT entries), so that 16/32-bit
wrap-around is part of the arithmetic, as the code contracts demand.
External collaborators that are not part of the translated source file
(the position, the feature set and the feature-transformer weight views)
are modelled from the specification and clearly marked as such.
-/

namespace StockfishNNUE

/-- A board square, an integer in [0, 63]. -/
abbrev Square := Fin 64

/-- A bitboard: a 64-bit set of squares, modelled as a finite set. -/
abbrev Bitboard := Finset Square

/-- The two chess colors; these double as the two perspectives. -/
inductive Color where
  | white
  | black
deriving DecidableEq

/-- The six piece types. -/
inductive PieceType where
  | pawn
  | knight
  | bishop
  | rook
  | queen
  | king
deriving DecidableEq

/-- A piece is a (color, type) pair, as built by make_piece. -/
abbrev Piece := Color × PieceType

/-- The color iteration order of the refresh kernel: {WHITE, BLACK}. -/
def allColors : List Color := [Color.white, Color.black]

/-- The piece-type iteration order of the refresh kernel: PAWN..KING. -/
def allPieceTypes : List PieceType :=
  [PieceType.pawn, PieceType.knight, PieceType.bishop,
   PieceType.rook, PieceType.queen, PieceType.king]

/-- 16-bit machine integers: the integers modulo 2^16, with wrapping
add and subtract.  Dense accumulator entries and weights live here. -/
abbrev Int16W := ZMod 65536

/-- 32-bit machine integers: the integers modulo 2^32.  PSQT accumulator
entries and PSQT weights live here. -/
abbrev Int32W := ZMod 4294967296

/-- Modelled from the spec: the external read-only Position collaborator.
`piecesBy c t` is `pos.pieces(c, t)`, the bitboard of pieces of color c
and type t; `kingSq p` is `pos.square<KING>(p)`. -/
structure Position where
  piecesBy : Color → PieceType → Bitboard
  kingSq : Color → Square

/-- Source `pos.pieces(c)`: all squares occupied by color c. -/
def Position.piecesColor (pos : Position) (c : Color) : Bitboard :=
  pos.piecesBy c PieceType.pawn ∪ pos.piecesBy c PieceType.knight ∪
    pos.piecesBy c PieceType.bishop ∪ pos.piecesBy c PieceType.rook ∪
    pos.piecesBy c PieceType.queen ∪ pos.piecesBy c PieceType.king

/-- Source `pos.pieces(t)`: all squares occupied by a piece of type t. -/
def Position.piecesType (pos : Position) (t : PieceType) : Bitboard :=
  pos.piecesBy Color.white t ∪ pos.piecesBy Color.black t

/-- A legal position places at most one piece on a square: the per
(color, type) bitboards are pairwise disjoint. -/
def Position.WellFormed (pos : Position) : Prop :=
  ∀ c₁ t₁ c₂ t₂, (c₁, t₁) ≠ (c₂, t₂) →
    Disjoint (pos.piecesBy c₁ t₁) (pos.piecesBy c₂ t₂)

/-- Modelled from the spec: DirtyPiece, the move delta of one ply — up to
three (piece, from, to) triples, `from = none` encoding an addition and
`to = none` a removal. -/
structure DirtyPiece where
  changes : List (Piece × Option Square × Option Square)
deriving DecidableEq

instance : Inhabited DirtyPiece := ⟨⟨[]⟩⟩

/-- Modelled from the spec: the feature-set interface (HalfKA-style),
whose implementation is outside the translated source file.
`makeIndex p sq pc ksq` is `make_index<p>(sq, pc, ksq)`;
`requiresRefresh dp p` is `requires_refresh(dp, p)`;
`appendChangedIndices p ksq dp` returns the (removed, added) feature
index lists appended by `append_changed_indices<p>(ksq, dp, ·, ·)`. -/
structure FeatureSet where
  makeIndex : Color → Square → Piece → Square → ℕ
  requiresRefresh : DirtyPiece → Color → Bool
  appendChangedIndices : Color → Square → DirtyPiece → List ℕ × List ℕ

/-- Modelled from the spec: the feature transformer view.  `weights f k`
is the k-th component of the column of feature f (row-major
`weights[f * Dimensions + k]`), and `psqtWeights f b` the b-th PSQT
weight of feature f. -/
structure FeatureTransformer where
  weights : ℕ → ℕ → Int16W
  psqtWeights : ℕ → ℕ → Int32W

/-- One accumulator: per perspective a dense vector, a PSQT vector and a
computed flag. -/
structure Accumulator where
  accumulation : Color → ℕ → Int16W
  psqtAccumulation : Color → ℕ → Int32W
  computed : Color → Bool

/-- A per-ply record: the big and small accumulators plus the move delta
that produced this ply. -/
structure AccumulatorState where
  accumulatorBig : Accumulator
  accumulatorSmall : Accumulator
  dirtyPiece : DirtyPiece

/-- Selector for one of the two networks; models the member pointer
`accPtr` with which the kernels are instantiated. -/
inductive NetSel where
  | big
  | small
deriving DecidableEq

/-- Dereference the accumulator selected by `sel` (the C++ `s.*accPtr`). -/
def AccumulatorState.acc : AccumulatorState → NetSel → Accumulator
  | s, NetSel.big => s.accumulatorBig
  | s, NetSel.small => s.accumulatorSmall

/-- Write the accumulator selected by `sel`. -/
def AccumulatorState.setAcc : AccumulatorState → NetSel → Accumulator → AccumulatorState
  | s, NetSel.big, a => { s with accumulatorBig := a }
  | s, NetSel.small, a => { s with accumulatorSmall := a }

/-- Source `AccumulatorState::reset(dp)`: store the dirty piece and clear the
computed flags of both networks; vector contents are untouched. -/
def AccumulatorState.reset (s : AccumulatorState) (dp : DirtyPiece) : AccumulatorState :=
  { s with
    dirtyPiece := dp
    accumulatorBig := { s.accumulatorBig with computed := fun _ => false }
    accumulatorSmall := { s.accumulatorSmall with computed := fun _ => false } }

/-- The features contributed by the pieces of one (color, type) pair:
one `make_index` per occupied square of the bitboard. -/
def squareFeatures (fs : FeatureSet) (p : Color) (ksq : Square) (pc : Piece)
    (bb : Bitboard) : Multiset ℕ :=
  bb.val.map (fun sq => fs.makeIndex p sq pc ksq)

/-- All features of a board given by per-(color, type) bitboards, viewed
from perspective p with king on ksq. -/
def boardFeatures (fs : FeatureSet) (p : Color) (ksq : Square)
    (boards : Color → PieceType → Bitboard) : Multiset ℕ :=
  (allColors.map (fun c =>
    (allPieceTypes.map (fun t => squareFeatures fs p ksq (c, t) (boards c t))).sum)).sum

/-- The features active in a position from perspective p with king on ksq. -/
def activeFeatures (fs : FeatureSet) (pos : Position) (p : Color) (ksq : Square) : Multiset ℕ :=
  boardFeatures fs p ksq pos.piecesBy

/-- The k-th dense component of a from-scratch transform of `pos` from
perspective p: the sum of the weight columns of all active features. -/
def fullAccum (fs : FeatureSet) (ft : FeatureTransformer) (pos : Position)
    (p : Color) (k : ℕ) : Int16W :=
  ((activeFeatures fs pos p (pos.kingSq p)).map (fun f => ft.weights f k)).sum

/-- The b-th PSQT component of a from-scratch transform of `pos`. -/
def fullPsqt (fs : FeatureSet) (ft : FeatureTransformer) (pos : Position)
    (p : Color) (b : ℕ) : Int32W :=
  ((activeFeatures fs pos p (pos.kingSq p)).map (fun f => ft.psqtWeights f b)).sum

/-- One cache entry: a full dense + PSQT snapshot plus the bitboards of
the board that produced it. -/
structure CacheEntry where
  accumulation : ℕ → Int16W
  psqtAccumulation : ℕ → Int32W
  byColorBB : Color → Bitboard
  byTypeBB : PieceType → Bitboard

/-- The (king-square, perspective)-indexed refresh cache. -/
abbrev Cache := Square → Color → CacheEntry

/-- The board recorded in a cache entry, per (color, type) pair:
`entry.byColorBB[c] & entry.byTypeBB[t]`. -/
def CacheEntry.board (e : CacheEntry) (c : Color) (t : PieceType) : Bitboard :=
  e.byColorBB c ∩ e.byTypeBB t

/-- The features of the board recorded in a cache entry. -/
def entryFeatures (fs : FeatureSet) (p : Color) (ksq : Square) (e : CacheEntry) : Multiset ℕ :=
  boardFeatures fs p ksq e.board

/-- The cache-entry invariant: the snapshot equals the transform of the
board stored in the same entry, viewed from this perspective with the
king on this square. -/
def EntryInv (fs : FeatureSet) (ft : FeatureTransformer) (ksq : Square) (p : Color)
    (e : CacheEntry) : Prop :=
  (∀ k, e.accumulation k = ((entryFeatures fs p ksq e).map (fun f => ft.weights f k)).sum) ∧
  (∀ b, e.psqtAccumulation b = ((entryFeatures fs p ksq e).map (fun f => ft.psqtWeights f b)).sum)

/-- The global cache invariant: every entry satisfies its invariant. -/
def CacheInv (fs : FeatureSet) (ft : FeatureTransformer) (cache : Cache) : Prop :=
  ∀ ksq p, EntryInv fs ft ksq p (cache ksq p)

/-- The squares of a bitboard in ascending order, as enumerated by the
`pop_lsb` loops. -/
def sortedSquares (bb : Bitboard) : List Square :=
  bb.sort (fun a b => a ≤ b)

/-- The `removed` index list built by the refresh kernel: for each
(color, type) pair in loop order, the features of the squares in
`oldBB & ~newBB`. -/
def refreshRemoved (fs : FeatureSet) (p : Color) (ksq : Square) (entry : CacheEntry)
    (pos : Position) : List ℕ :=
  (allColors.map (fun c =>
    (allPieceTypes.map (fun t =>
      (sortedSquares (entry.board c t \ pos.piecesBy c t)).map
        (fun sq => fs.makeIndex p sq (c, t) ksq))).flatten)).flatten

/-- The `added` index list built by the refresh kernel: for each
(color, type) pair in loop order, the features of the squares in
`newBB & ~oldBB`. -/
def refreshAdded (fs : FeatureSet) (p : Color) (ksq : Square) (entry : CacheEntry)
    (pos : Position) : List ℕ :=
  (allColors.map (fun c =>
    (allPieceTypes.map (fun t =>
      (sortedSquares (pos.piecesBy c t \ entry.board c t)).map
        (fun sq => fs.makeIndex p sq (c, t) ksq))).flatten)).flatten

/-- The straightforward (scalar-path) application of a refresh delta to
one dense lane: subtract each removed column entry, then add each added
column entry. -/
def scalarRefreshApply (ft : FeatureTransformer) (removed added : List ℕ) (k : ℕ)
    (x : Int16W) : Int16W :=
  added.foldl (fun acc i => acc + ft.weights i k)
    (removed.foldl (fun acc i => acc - ft.weights i k) x)

/-- The scalar-path application of a refresh delta to one PSQT lane. -/
def scalarRefreshApplyPsqt (ft : FeatureTransformer) (removed added : List ℕ) (b : ℕ)
    (x : Int32W) : Int32W :=
  added.foldl (fun acc i => acc + ft.psqtWeights i b)
    (removed.foldl (fun acc i => acc - ft.psqtWeights i b) x)

/-- Source `update_accumulator_refresh_cache`: build the removed/added lists
from the bitboard set-differences between the cache entry and the
position, apply them to the entry snapshot in place, copy the updated
snapshot into the state and mark it computed, then overwrite the entry
bitboards from the position.  Returns the updated state and cache. -/
def update_accumulator_refresh_cache (fs : FeatureSet) (ft : FeatureTransformer)
    (p : Color) (sel : NetSel) (pos : Position) (st : AccumulatorState)
    (cache : Cache) : AccumulatorState × Cache :=
  let ksq := pos.kingSq p
  let entry := cache ksq p
  let removed := refreshRemoved fs p ksq entry pos
  let added := refreshAdded fs p ksq entry pos
  let newAcc : ℕ → Int16W := fun k => scalarRefreshApply ft removed added k (entry.accumulation k)
  let newPsqt : ℕ → Int32W :=
    fun b => scalarRefreshApplyPsqt ft removed added b (entry.psqtAccumulation b)
  let a := st.acc sel
  let a₂ : Accumulator :=
    { accumulation := Function.update a.accumulation p newAcc
      psqtAccumulation := Function.update a.psqtAccumulation p newPsqt
      computed := Function.update a.computed p true }
  let entry₂ : CacheEntry :=
    { accumulation := newAcc
      psqtAccumulation := newPsqt
      byColorBB := fun c => pos.piecesColor c
      byTypeBB := fun t => pos.piecesType t }
  (st.setAcc sel a₂, fun s c => if s = ksq ∧ c = p then entry₂ else cache s c)

/-- The `combineLast3` condition of the vector path: the removed/added
list lengths differ by exactly one and their total exceeds two. -/
def combineLast3 (removed added : List ℕ) : Bool :=
  decide ((((removed.length : ℤ) - (added.length : ℤ)).natAbs = 1) ∧
    2 < removed.length + added.length)

/-- The fused application of a refresh delta to one dense lane,
mirroring the vector path: one add+sub pair per iteration while indices
remain in both lists (stopping one short when `combineLast3`), then
either one fused triple or the remaining indices applied individually. -/
def fusedRefreshApply (ft : FeatureTransformer) (removed added : List ℕ) (k : ℕ)
    (x : Int16W) : Int16W :=
  let b3 := combineLast3 removed added
  let bound := min removed.length added.length - (if b3 then 1 else 0)
  let afterPairs := x +
    ((List.range bound).map
      (fun i => ft.weights (added.getD i 0) k - ft.weights (removed.getD i 0) k)).sum
  if b3 then
    if added.length < removed.length then
      afterPairs + ft.weights (added.getD bound 0) k - ft.weights (removed.getD bound 0) k -
        ft.weights (removed.getD (bound + 1) 0) k
    else
      afterPairs + ft.weights (added.getD bound 0) k + ft.weights (added.getD (bound + 1) 0) k -
        ft.weights (removed.getD bound 0) k
  else
    (afterPairs - ((removed.drop bound).map (fun i => ft.weights i k)).sum) +
      ((added.drop bound).map (fun i => ft.weights i k)).sum

/-- The direction tag of the incremental kernel. -/
inductive IncUpdateDirection where
  | FORWARD
  | BACKWARD
deriving DecidableEq

/-- The (removed, added) lists used by one incremental update: from the
target state's dirty piece when going FORWARD, from the computed
(source) state's dirty piece with the two lists swapped when going
BACKWARD. -/
def incLists (fs : FeatureSet) (p : Color) (ksq : Square) (dir : IncUpdateDirection)
    (target computed : AccumulatorState) : List ℕ × List ℕ :=
  match dir with
  | IncUpdateDirection.FORWARD => fs.appendChangedIndices p ksq target.dirtyPiece
  | IncUpdateDirection.BACKWARD => Prod.swap (fs.appendChangedIndices p ksq computed.dirtyPiece)

/-- The fused-lane dispatch of the incremental kernel: the four
`apply<ops...>` cases of `update_accumulator_incremental`, selected on
the direction and the list sizes exactly as in the source. -/
def incApply {α : Type} [Add α] [Sub α] (dir : IncUpdateDirection)
    (removed added : List ℕ) (w : ℕ → α) (x : α) : α :=
  if (dir = IncUpdateDirection.FORWARD ∧ removed.length = 1) ∨
      (dir = IncUpdateDirection.BACKWARD ∧ added.length = 1) then
    x + w (added.getD 0 0) - w (removed.getD 0 0)
  else if dir = IncUpdateDirection.FORWARD ∧ added.length = 1 then
    x + w (added.getD 0 0) - w (removed.getD 0 0) - w (removed.getD 1 0)
  else if dir = IncUpdateDirection.BACKWARD ∧ removed.length = 1 then
    x + w (added.getD 0 0) + w (added.getD 1 0) - w (removed.getD 0 0)
  else
    x + w (added.getD 0 0) + w (added.getD 1 0) - w (removed.getD 0 0) - w (removed.getD 1 0)

/-- Source `update_accumulator_incremental`: apply one move delta to the
selected accumulator of `target_state`, reading every lane once from
`computed` and writing it once into `target_state`, then mark the target
computed for this perspective. -/
def update_accumulator_incremental (fs : FeatureSet) (ft : FeatureTransformer)
    (p : Color) (dir : IncUpdateDirection) (sel : NetSel) (ksq : Square)
    (target_state computed : AccumulatorState) : AccumulatorState :=
  let rl := incLists fs p ksq dir target_state computed
  let removed := rl.1
  let added := rl.2
  let src := computed.acc sel
  let a := target_state.acc sel
  target_state.setAcc sel
    { accumulation := Function.update a.accumulation p
        (fun k => incApply dir removed added (fun i => ft.weights i k) (src.accumulation p k))
      psqtAccumulation := Function.update a.psqtAccumulation p
        (fun b => incApply dir removed added (fun i => ft.psqtWeights i b)
          (src.psqtAccumulation p b))
      computed := Function.update a.computed p true }

/-- The accumulator stack: a bounded buffer of per-ply states (modelled
as a total map plus the array size) and the current index. -/
structure AccumulatorStack where
  m_accumulators : ℕ → AccumulatorState
  m_current_idx : ℕ
  capacity : ℕ

/-- Source `latest()`: the state at `m_current_idx - 1`. -/
def AccumulatorStack.latest (stk : AccumulatorStack) : AccumulatorState :=
  stk.m_accumulators (stk.m_current_idx - 1)

/-- Source `push(dp)`: reset the state at `m_current_idx`, then increment. -/
def AccumulatorStack.push (stk : AccumulatorStack) (dp : DirtyPiece) : AccumulatorStack :=
  { stk with
    m_accumulators := Function.update stk.m_accumulators stk.m_current_idx
      ((stk.m_accumulators stk.m_current_idx).reset dp)
    m_current_idx := stk.m_current_idx + 1 }

/-- Source `pop()`: decrement `m_current_idx`. -/
def AccumulatorStack.pop (stk : AccumulatorStack) : AccumulatorStack :=
  { stk with m_current_idx := stk.m_current_idx - 1 }

/-- The descending search loop of `find_last_usable_accumulator`,
starting at index i and stopping at 1; returns 0 when no index ≥ 1 is
computed or refresh-requiring. -/
def findLastFrom (stk : AccumulatorStack) (fs : FeatureSet) (p : Color) (sel : NetSel) :
    ℕ → ℕ
  | 0 => 0
  | i + 1 =>
    if ((stk.m_accumulators (i + 1)).acc sel).computed p = true then i + 1
    else if fs.requiresRefresh (stk.m_accumulators (i + 1)).dirtyPiece p = true then i + 1
    else findLastFrom stk fs p sel i

/-- Source `find_last_usable_accumulator`: walk backwards from
`m_current_idx - 1`. -/
def AccumulatorStack.find_last_usable_accumulator (stk : AccumulatorStack)
    (fs : FeatureSet) (p : Color) (sel : NetSel) : ℕ :=
  findLastFrom stk fs p sel (stk.m_current_idx - 1)

/-- n sequential forward incremental updates: the first writes index
b + 1 from index b, the last writes index b + n from b + n - 1. -/
def forwardSteps (fs : FeatureSet) (ft : FeatureTransformer) (p : Color) (sel : NetSel)
    (ksq : Square) : ℕ → (ℕ → AccumulatorState) → ℕ → (ℕ → AccumulatorState)
  | 0, accs, _ => accs
  | n + 1, accs, b =>
    let accs₂ := Function.update accs (b + 1)
      (update_accumulator_incremental fs ft p IncUpdateDirection.FORWARD sel ksq
        (accs (b + 1)) (accs b))
    forwardSteps fs ft p sel ksq n accs₂ (b + 1)

/-- Source `forward_update_incremental`: update indices `begin + 1` up to
`m_current_idx - 1`, each from its predecessor. -/
def AccumulatorStack.forward_update_incremental (stk : AccumulatorStack)
    (fs : FeatureSet) (ft : FeatureTransformer) (p : Color) (sel : NetSel)
    (pos : Position) (b : ℕ) : AccumulatorStack :=
  { stk with
    m_accumulators :=
      forwardSteps fs ft p sel (pos.kingSq p) (stk.m_current_idx - 1 - b)
        stk.m_accumulators b }

/-- n sequential backward incremental updates: the first writes index j
from index j + 1, the last writes index j - n + 1 from j - n + 2. -/
def backwardSteps (fs : FeatureSet) (ft : FeatureTransformer) (p : Color) (sel : NetSel)
    (ksq : Square) : ℕ → (ℕ → AccumulatorState) → ℕ → (ℕ → AccumulatorState)
  | 0, accs, _ => accs
  | n + 1, accs, j =>
    let accs₂ := Function.update accs j
      (update_accumulator_incremental fs ft p IncUpdateDirection.BACKWARD sel ksq
        (accs j) (accs (j + 1)))
    backwardSteps fs ft p sel ksq n accs₂ (j - 1)

/-- Source `backward_update_incremental`: update indices `m_current_idx - 2`
down to `end`, each from its successor. -/
def AccumulatorStack.backward_update_incremental (stk : AccumulatorStack)
    (fs : FeatureSet) (ft : FeatureTransformer) (p : Color) (sel : NetSel)
    (pos : Position) (e : ℕ) : AccumulatorStack :=
  { stk with
    m_accumulators :=
      backwardSteps fs ft p sel (pos.kingSq p) (stk.m_current_idx - 1 - e)
        stk.m_accumulators (stk.m_current_idx - 2) }

/-- Source `evaluate_side`: find the last usable accumulator; if it is computed
for this perspective, propagate forward from it, otherwise refresh the
latest state from the cache and propagate backward down to it. -/
def AccumulatorStack.evaluate_side (stk : AccumulatorStack) (fs : FeatureSet)
    (ft : FeatureTransformer) (p : Color) (sel : NetSel) (pos : Position)
    (cache : Cache) : AccumulatorStack × Cache :=
  let k := stk.find_last_usable_accumulator fs p sel
  if ((stk.m_accumulators k).acc sel).computed p = true then
    (stk.forward_update_incremental fs ft p sel pos k, cache)
  else
    let rc := update_accumulator_refresh_cache fs ft p sel pos stk.latest cache
    let stk₂ := { stk with
      m_accumulators := Function.update stk.m_accumulators (stk.m_current_idx - 1) rc.1 }
    (stk₂.backward_update_incremental fs ft p sel pos k, rc.2)

/-- Source `evaluate`: run `evaluate_side` for WHITE, then for BLACK, on the
selected network. -/
def AccumulatorStack.evaluate (stk : AccumulatorStack) (fs : FeatureSet)
    (ft : FeatureTransformer) (sel : NetSel) (pos : Position)
    (cache : Cache) : AccumulatorStack × Cache :=
  let w := stk.evaluate_side fs ft Color.white sel pos cache
  w.1.evaluate_side fs ft Color.black sel pos w.2

/-- Source `AccumulatorStack::reset`: set `m_current_idx = 1` and refresh the
root state for both perspectives of both networks, threading each
network's cache through its two refresh calls. -/
def AccumulatorStack.reset (stk : AccumulatorStack) (fs : FeatureSet)
    (fts : NetSel → FeatureTransformer) (rootPos : Position)
    (caches : NetSel → Cache) : AccumulatorStack × (NetSel → Cache) :=
  let s₀ := stk.m_accumulators 0
  let r₁ := update_accumulator_refresh_cache fs (fts NetSel.big) Color.white NetSel.big
    rootPos s₀ (caches NetSel.big)
  let r₂ := update_accumulator_refresh_cache fs (fts NetSel.big) Color.black NetSel.big
    rootPos r₁.1 r₁.2
  let r₃ := update_accumulator_refresh_cache fs (fts NetSel.small) Color.white NetSel.small
    rootPos r₂.1 (caches NetSel.small)
  let r₄ := update_accumulator_refresh_cache fs (fts NetSel.small) Color.black NetSel.small
    rootPos r₃.1 r₃.2
  ({ stk with
      m_current_idx := 1
      m_accumulators := Function.update stk.m_accumulators 0 r₄.1 },
   fun sel => match sel with
     | NetSel.big => r₂.2
     | NetSel.small => r₄.2)

/-- One driver operation on the subsystem.  A `push` carries, as ghost
data, the position the move leads to; `eval` selects a network. -/
inductive Op where
  | push (dp : DirtyPiece) (newPos : Position)
  | pop
  | eval (sel : NetSel)

/-- The whole subsystem state: the stack, one cache per network, and the
ghost positions of the plies on the search path (`positions i` is the
position at ply i, for i < m_current_idx). -/
structure SysState where
  stk : AccumulatorStack
  caches : NetSel → Cache
  positions : ℕ → Position

/-- Execute one operation.  An `eval` is called, as the driver does, with
the position of the latest ply. -/
def step (fs : FeatureSet) (fts : NetSel → FeatureTransformer) (s : SysState) :
    Op → SysState
  | Op.push dp newPos =>
    { s with
      stk := s.stk.push dp
      positions := Function.update s.positions s.stk.m_current_idx newPos }
  | Op.pop => { s with stk := s.stk.pop }
  | Op.eval sel =>
    let r := s.stk.evaluate fs (fts sel) sel (s.positions (s.stk.m_current_idx - 1))
      (s.caches sel)
    { s with stk := r.1, caches := Function.update s.caches sel r.2 }

/-- Execute a list of operations in order. -/
def runOps (fs : FeatureSet) (fts : NetSel → FeatureTransformer) (s : SysState) :
    List Op → SysState
  | [] => s
  | op :: rest => runOps fs fts (step fs fts s op) rest

/-- Operation `reset(rootPos, networks, caches)` as a system transition, recording
the root position at ply 0. -/
def resetSys (fs : FeatureSet) (fts : NetSel → FeatureTransformer)
    (stk₀ : AccumulatorStack) (caches₀ : NetSel → Cache) (root : Position) : SysState :=
  let r := stk₀.reset fs fts root caches₀
  { stk := r.1, caches := r.2, positions := fun _ => root }

/-- The consistency of one pushed move delta with the positions before
and after it, for one perspective: unless the whole perspective requires
a refresh, the perspective's king square is unchanged and
`append_changed_indices` (evaluated at that king square) carries the
active-feature multiset of the old position into that of the new one,
with the contractual list sizes. -/
def DeltaConsistent (fs : FeatureSet) (p : Color) (dp : DirtyPiece)
    (posB posA : Position) : Prop :=
  fs.requiresRefresh dp p = false →
    posA.kingSq p = posB.kingSq p ∧
    ((fs.appendChangedIndices p (posA.kingSq p) dp).1.length = 1 ∨
      (fs.appendChangedIndices p (posA.kingSq p) dp).1.length = 2) ∧
    ((fs.appendChangedIndices p (posA.kingSq p) dp).2.length = 1 ∨
      (fs.appendChangedIndices p (posA.kingSq p) dp).2.length = 2) ∧
    (fs.appendChangedIndices p (posA.kingSq p) dp).2.length ≤
      (fs.appendChangedIndices p (posA.kingSq p) dp).1.length ∧
    activeFeatures fs posA p (posA.kingSq p) +
        ((fs.appendChangedIndices p (posA.kingSq p) dp).1 : Multiset ℕ) =
      activeFeatures fs posB p (posB.kingSq p) +
        ((fs.appendChangedIndices p (posA.kingSq p) dp).2 : Multiset ℕ)

/-- The precondition of one operation: pushes stay within the buffer and
carry a well-formed position consistent with the delta; pops never empty
the stack. -/
def ValidOp (fs : FeatureSet) (s : SysState) : Op → Prop
  | Op.push dp newPos =>
    s.stk.m_current_idx + 1 < s.stk.capacity ∧ newPos.WellFormed ∧
    ∀ p, DeltaConsistent fs p dp (s.positions (s.stk.m_current_idx - 1)) newPos
  | Op.pop => 1 < s.stk.m_current_idx
  | Op.eval _ => True

/-- Validity of a whole operation sequence from a given state. -/
def ValidOps (fs : FeatureSet) (fts : NetSel → FeatureTransformer) (s : SysState) :
    List Op → Prop
  | [] => True
  | op :: rest => ValidOp fs s op ∧ ValidOps fs fts (step fs fts s op) rest

/-- Exactness of one perspective of one accumulator: its vectors equal
the from-scratch transform of `pos`. -/
def ExactAt (fs : FeatureSet) (ft : FeatureTransformer) (pos : Position) (p : Color)
    (a : Accumulator) : Prop :=
  (∀ k, a.accumulation p k = fullAccum fs ft pos p k) ∧
  (∀ b, a.psqtAccumulation p b = fullPsqt fs ft pos p b)

/-- The main state invariant: the stack is nonempty, the root state is
computed everywhere, every computed slot holds the exact transform of
its ply's position, stored dirty pieces are consistent with their
positions, path positions are well-formed, and both caches satisfy the
cache invariant. -/
def StackInv (fs : FeatureSet) (fts : NetSel → FeatureTransformer) (s : SysState) : Prop :=
  1 ≤ s.stk.m_current_idx ∧
  (∀ sel p, ((s.stk.m_accumulators 0).acc sel).computed p = true) ∧
  (∀ sel p i, i < s.stk.m_current_idx →
    ((s.stk.m_accumulators i).acc sel).computed p = true →
    ExactAt fs (fts sel) (s.positions i) p ((s.stk.m_accumulators i).acc sel)) ∧
  (∀ p i, 1 ≤ i → i < s.stk.m_current_idx →
    DeltaConsistent fs p (s.stk.m_accumulators i).dirtyPiece
      (s.positions (i - 1)) (s.positions i)) ∧
  (∀ i, i < s.stk.m_current_idx → (s.positions i).WellFormed) ∧
  (∀ sel, CacheInv fs (fts sel) (s.caches sel))

/-- Index j of the stack is usable for (perspective, network): its
accumulator is computed, or its dirty piece requires a full refresh. -/
def usableAt (stk : AccumulatorStack) (fs : FeatureSet) (p : Color) (sel : NetSel)
    (j : ℕ) : Prop :=
  ((stk.m_accumulators j).acc sel).computed p = true ∨
    fs.requiresRefresh (stk.m_accumulators j).dirtyPiece p = true

/-- The 12 (color, type) pairs in the refresh kernel's loop order. -/
def allPairs : List Piece :=
  (allColors.map (fun c => allPieceTypes.map (fun t => (c, t)))).flatten

/-- A small concrete feature set used for witnesses. -/
def fsW : FeatureSet :=
  { makeIndex := fun _ sq _ _ => sq.val
    requiresRefresh := fun dp _ => decide (dp.changes ≠ [])
    appendChangedIndices := fun _ _ _ => ([0], [0]) }

/-- The all-zero feature transformer used for witnesses. -/
def ftW : FeatureTransformer :=
  { weights := fun _ _ => 0, psqtWeights := fun _ _ => 0 }

/-- Both networks share the all-zero transformer in the witnesses. -/
def ftsW : NetSel → FeatureTransformer := fun _ => ftW

/-- The empty board with both kings (nominally) on square 0. -/
def emptyPos : Position :=
  { piecesBy := fun _ _ => ∅, kingSq := fun _ => 0 }

/-- The all-zero cache entry over the empty board. -/
def zeroEntry : CacheEntry :=
  { accumulation := fun _ => 0
    psqtAccumulation := fun _ => 0
    byColorBB := fun _ => ∅
    byTypeBB := fun _ => ∅ }

/-- The freshly cleared cache. -/
def zeroCache : Cache := fun _ _ => zeroEntry

/-- Caches for both networks, freshly cleared. -/
def cachesW : NetSel → Cache := fun _ => zeroCache

/-- An all-zero accumulator with computed flags set. -/
def accZC : Accumulator :=
  { accumulation := fun _ _ => 0, psqtAccumulation := fun _ _ => 0
    computed := fun _ => true }

/-- An all-zero accumulator with computed flags cleared. -/
def accZU : Accumulator :=
  { accumulation := fun _ _ => 0, psqtAccumulation := fun _ _ => 0
    computed := fun _ => false }

/-- A dirty piece whose nonempty change list makes `fsW` demand a
refresh. -/
def dpRef : DirtyPiece := ⟨[((Color.white, PieceType.pawn), none, none)]⟩

/-- A computed all-zero state. -/
def stateC : AccumulatorState := ⟨accZC, accZC, ⟨[]⟩⟩

/-- An uncomputed all-zero state carrying a refresh-requiring delta. -/
def stateU : AccumulatorState := ⟨accZU, accZU, dpRef⟩

/-- A two-ply stack: a computed root and an uncomputed top. -/
def sysW : SysState :=
  { stk := { m_accumulators := fun i => if i = 0 then stateC else stateU
             m_current_idx := 2
             capacity := 64 }
    caches := fun _ => zeroCache
    positions := fun _ => emptyPos }

/-- A one-ply stack used as the pre-reset stack of the trace witnesses. -/
def stackW : AccumulatorStack :=
  { m_accumulators := fun _ => stateC, m_current_idx := 1, capacity := 64 }

theorem acc_setAcc_same (s : AccumulatorState) (sel : NetSel) (a : Accumulator) :
    (s.setAcc sel a).acc sel = a := by
  cases sel <;> rfl

theorem acc_setAcc_other (s : AccumulatorState) {sel sel₂ : NetSel} (a : Accumulator)
    (h : sel₂ ≠ sel) : (s.setAcc sel a).acc sel₂ = s.acc sel₂ := by
  cases sel <;> cases sel₂ <;> first | rfl | exact absurd rfl h

theorem dirtyPiece_setAcc (s : AccumulatorState) (sel : NetSel) (a : Accumulator) :
    (s.setAcc sel a).dirtyPiece = s.dirtyPiece := by
  cases sel <;> rfl

/-- C8: `AccumulatorState::reset(dp)` sets `dirtyPiece = dp`, clears the
computed flags of both networks for both perspectives, and leaves every
dense accumulation vector and every PSQT vector of both networks
byte-for-byte unchanged. -/
theorem reset_sets_flags_and_preserves_vectors (s : AccumulatorState) (dp : DirtyPiece) :
    (s.reset dp).dirtyPiece = dp ∧
    (∀ p : Color, ((s.reset dp).accumulatorBig.computed p = false) ∧
      ((s.reset dp).accumulatorSmall.computed p = false)) ∧
    (s.reset dp).accumulatorBig.accumulation = s.accumulatorBig.accumulation ∧
    (s.reset dp).accumulatorBig.psqtAccumulation = s.accumulatorBig.psqtAccumulation ∧
    (s.reset dp).accumulatorSmall.accumulation = s.accumulatorSmall.accumulation ∧
    (s.reset dp).accumulatorSmall.psqtAccumulation = s.accumulatorSmall.psqtAccumulation := by
  refine ⟨rfl, fun p => ⟨rfl, rfl⟩, rfl, rfl, rfl, rfl⟩

theorem list_foldl_sub {α : Type} [AddCommGroup α] (w : ℕ → α) :
    ∀ (l : List ℕ) (x : α), l.foldl (fun acc i => acc - w i) x = x - (l.map w).sum := by
  intro l
  induction l with
  | nil => intro x; simp
  | cons a t ih => intro x; simp [ih, sub_sub]

theorem list_foldl_add {α : Type} [AddCommGroup α] (w : ℕ → α) :
    ∀ (l : List ℕ) (x : α), l.foldl (fun acc i => acc + w i) x = x + (l.map w).sum := by
  intro l
  induction l with
  | nil => intro x; simp
  | cons a t ih => intro x; simp [ih, add_assoc]

theorem scalarRefreshApply_eq (ft : FeatureTransformer) (removed added : List ℕ)
    (k : ℕ) (x : Int16W) :
    scalarRefreshApply ft removed added k x =
      x - (removed.map (fun i => ft.weights i k)).sum +
        (added.map (fun i => ft.weights i k)).sum := by
  rw [scalarRefreshApply, list_foldl_sub, list_foldl_add]

theorem scalarRefreshApplyPsqt_eq (ft : FeatureTransformer) (removed added : List ℕ)
    (b : ℕ) (x : Int32W) :
    scalarRefreshApplyPsqt ft removed added b x =
      x - (removed.map (fun i => ft.psqtWeights i b)).sum +
        (added.map (fun i => ft.psqtWeights i b)).sum := by
  rw [scalarRefreshApplyPsqt, list_foldl_sub, list_foldl_add]

theorem range_map_getD :
    ∀ (l : List ℕ) (m : ℕ), m ≤ l.length →
      (List.range m).map (fun i => l.getD i 0) = l.take m := by
  intro l
  induction l with
  | nil =>
    intro m hm
    have : m = 0 := Nat.le_zero.mp hm
    subst this; simp
  | cons a t ih =>
    intro m hm
    cases m with
    | zero => simp
    | succ m =>
      rw [List.range_succ_eq_map, List.map_cons, List.map_map]
      have hmt : m ≤ t.length := by simpa using hm
      have := ih m hmt
      simp only [List.take_succ_cons]
      refine congrArg (a :: ·) ?_
      rw [← this]
      rfl

theorem sum_map_sub_list {ι α : Type} [AddCommGroup α] (f g : ι → α) :
    ∀ l : List ι, (l.map (fun i => f i - g i)).sum = (l.map f).sum - (l.map g).sum := by
  intro l
  induction l with
  | nil => simp
  | cons a t ih => simp [ih]; abel

theorem map_sum_take_drop {α : Type} [AddCommMonoid α] (w : ℕ → α) (l : List ℕ) (m : ℕ) :
    ((l.take m).map w).sum + ((l.drop m).map w).sum = (l.map w).sum := by
  rw [← List.sum_append, ← List.map_append, List.take_append_drop]

theorem sum_map_range_getD {α : Type} [AddCommMonoid α] (w : ℕ → α) (l : List ℕ) :
    ((List.range l.length).map (fun i => w (l.getD i 0))).sum = (l.map w).sum := by
  have h := range_map_getD l l.length le_rfl
  calc ((List.range l.length).map (fun i => w (l.getD i 0))).sum
      = (((List.range l.length).map (fun i => l.getD i 0)).map w).sum := by
        rw [List.map_map]; rfl
    _ = (l.map w).sum := by rw [h, List.take_length]

/-- C7: the fused refresh path — one add+sub pair per iteration while
both lists have indices remaining, one fused triple when the lengths
differ by exactly one and the total exceeds two, remaining indices
applied individually — is arithmetically identical to the
straightforward sequence of individual column subtracts followed by
individual column adds. -/
theorem fused_refresh_matches_scalar (ft : FeatureTransformer) (removed added : List ℕ)
    (k : ℕ) (x : Int16W) :
    fusedRefreshApply ft removed added k x = scalarRefreshApply ft removed added k x := by
  rw [scalarRefreshApply_eq]
  by_cases h3 : combineLast3 removed added = true
  · have hc : (((removed.length : ℤ) - added.length).natAbs = 1) ∧
        2 < removed.length + added.length := by
      simpa [combineLast3] using h3
    have habs : ((removed.length : ℤ) - added.length = 1) ∨
        ((removed.length : ℤ) - added.length = -1) := Int.natAbs_eq_iff.mp hc.1
    by_cases hlt : added.length < removed.length
    · have hr : removed.length = added.length + 1 := by rcases habs with h | h <;> omega
      have ha1 : 1 ≤ added.length := by omega
      obtain ⟨m, hm⟩ : ∃ m, added.length = m + 1 := ⟨added.length - 1, by omega⟩
      have hbound : min removed.length added.length - 1 = m := by omega
      have hr2 : removed.length = m + 2 := by omega
      have ha2 : added.length = m + 1 := by omega
      simp only [fusedRefreshApply, h3, if_true, hlt, if_pos, hbound]
      rw [← sum_map_range_getD (fun i => ft.weights i k) removed,
        ← sum_map_range_getD (fun i => ft.weights i k) added, hr2, ha2]
      simp only [List.range_succ]
      simp only [List.map_append, List.sum_append, List.map_cons, List.map_nil,
        List.sum_cons, List.sum_nil]
      rw [sum_map_sub_list (fun i => ft.weights (added.getD i 0) k)
        (fun i => ft.weights (removed.getD i 0) k) (List.range m)]
      abel
    · have ha : added.length = removed.length + 1 := by rcases habs with h | h <;> omega
      have hr1 : 1 ≤ removed.length := by omega
      obtain ⟨m, hm⟩ : ∃ m, removed.length = m + 1 := ⟨removed.length - 1, by omega⟩
      have hbound : min removed.length added.length - 1 = m := by omega
      have hr2 : removed.length = m + 1 := by omega
      have ha2 : added.length = m + 2 := by omega
      simp only [fusedRefreshApply, h3, if_true, hlt, if_neg, if_false, hbound]
      rw [← sum_map_range_getD (fun i => ft.weights i k) removed,
        ← sum_map_range_getD (fun i => ft.weights i k) added, hr2, ha2]
      simp only [List.range_succ]
      simp only [List.map_append, List.sum_append, List.map_cons, List.map_nil,
        List.sum_cons, List.sum_nil]
      rw [sum_map_sub_list (fun i => ft.weights (added.getD i 0) k)
        (fun i => ft.weights (removed.getD i 0) k) (List.range m)]
      abel
  · have h3f : combineLast3 removed added = false := by
      simpa using h3
    simp only [fusedRefreshApply, h3f, Bool.false_eq_true, if_false, Nat.sub_zero]
    rw [sum_map_sub_list (fun i => ft.weights (added.getD i 0) k)
      (fun i => ft.weights (removed.getD i 0) k)]
    have hmr : min removed.length added.length ≤ removed.length := Nat.min_le_left _ _
    have hma : min removed.length added.length ≤ added.length := Nat.min_le_right _ _
    have er : (List.range (min removed.length added.length)).map
        (fun i => ft.weights (removed.getD i 0) k) =
        (removed.take (min removed.length added.length)).map (fun i => ft.weights i k) := by
      rw [← range_map_getD removed _ hmr, List.map_map]; rfl
    have ea : (List.range (min removed.length added.length)).map
        (fun i => ft.weights (added.getD i 0) k) =
        (added.take (min removed.length added.length)).map (fun i => ft.weights i k) := by
      rw [← range_map_getD added _ hma, List.map_map]; rfl
    rw [er, ea,
      ← map_sum_take_drop (fun i => ft.weights i k) removed (min removed.length added.length),
      ← map_sum_take_drop (fun i => ft.weights i k) added (min removed.length added.length)]
    abel

theorem incApply_eq_sum {α : Type} [AddCommGroup α] (dir : IncUpdateDirection)
    (removed added : List ℕ) (w : ℕ → α) (x : α)
    (hr : removed.length = 1 ∨ removed.length = 2)
    (ha : added.length = 1 ∨ added.length = 2)
    (hf : dir = IncUpdateDirection.FORWARD → added.length ≤ removed.length)
    (hb : dir = IncUpdateDirection.BACKWARD → removed.length ≤ added.length) :
    incApply dir removed added w x = x + (added.map w).sum - (removed.map w).sum := by
  cases dir with
  | FORWARD =>
    have hle := hf rfl
    rcases hr with hr | hr <;> rcases ha with ha | ha
    · obtain ⟨r₀, rfl⟩ := List.length_eq_one.mp hr
      obtain ⟨a₀, rfl⟩ := List.length_eq_one.mp ha
      simp [incApply]
    · simp only [hr, ha] at hle; omega
    · obtain ⟨r₀, r₁, rfl⟩ := List.length_eq_two.mp hr
      obtain ⟨a₀, rfl⟩ := List.length_eq_one.mp ha
      simp [incApply]; abel
    · obtain ⟨r₀, r₁, rfl⟩ := List.length_eq_two.mp hr
      obtain ⟨a₀, a₁, rfl⟩ := List.length_eq_two.mp ha
      simp [incApply]; abel
  | BACKWARD =>
    have hle := hb rfl
    rcases hr with hr | hr <;> rcases ha with ha | ha
    · obtain ⟨r₀, rfl⟩ := List.length_eq_one.mp hr
      obtain ⟨a₀, rfl⟩ := List.length_eq_one.mp ha
      simp [incApply]
    · obtain ⟨r₀, rfl⟩ := List.length_eq_one.mp hr
      obtain ⟨a₀, a₁, rfl⟩ := List.length_eq_two.mp ha
      simp [incApply]; abel
    · simp only [hr, ha] at hle; omega
    · obtain ⟨r₀, r₁, rfl⟩ := List.length_eq_two.mp hr
      obtain ⟨a₀, a₁, rfl⟩ := List.length_eq_two.mp ha
      simp [incApply]; abel

/-- C3: when called with valid index lists — the (removed, added) pair
taken from `append_changed_indices` on the target's dirty piece going
FORWARD, or on the source's dirty piece with the lists swapped going
BACKWARD, with the contractual sizes — the incremental kernel computes
`target.dense[p][k] = source.dense[p][k] + Σ_a w[aᵢ, k] − Σ_r w[rᵢ, k]`,
the analogous PSQT equation, and afterwards sets
`target.computed[p] = true`. -/
theorem update_incremental_correct (fs : FeatureSet) (ft : FeatureTransformer)
    (p : Color) (dir : IncUpdateDirection) (sel : NetSel) (ksq : Square)
    (target computed : AccumulatorState)
    (hr : (incLists fs p ksq dir target computed).1.length = 1 ∨
      (incLists fs p ksq dir target computed).1.length = 2)
    (ha : (incLists fs p ksq dir target computed).2.length = 1 ∨
      (incLists fs p ksq dir target computed).2.length = 2)
    (hf : dir = IncUpdateDirection.FORWARD →
      (incLists fs p ksq dir target computed).2.length ≤
        (incLists fs p ksq dir target computed).1.length)
    (hb : dir = IncUpdateDirection.BACKWARD →
      (incLists fs p ksq dir target computed).1.length ≤
        (incLists fs p ksq dir target computed).2.length) :
    (((update_accumulator_incremental fs ft p dir sel ksq target computed).acc sel).computed p
      = true) ∧
    (∀ k, ((update_accumulator_incremental fs ft p dir sel ksq target computed).acc
        sel).accumulation p k =
      (computed.acc sel).accumulation p k +
        ((incLists fs p ksq dir target computed).2.map (fun i => ft.weights i k)).sum -
        ((incLists fs p ksq dir target computed).1.map (fun i => ft.weights i k)).sum) ∧
    (∀ b, ((update_accumulator_incremental fs ft p dir sel ksq target computed).acc
        sel).psqtAccumulation p b =
      (computed.acc sel).psqtAccumulation p b +
        ((incLists fs p ksq dir target computed).2.map (fun i => ft.psqtWeights i b)).sum -
        ((incLists fs p ksq dir target computed).1.map (fun i => ft.psqtWeights i b)).sum) := by
  unfold update_accumulator_incremental
  rw [acc_setAcc_same]
  refine ⟨by simp, fun k => ?_, fun b => ?_⟩
  · simp only [Function.update_same]
    exact incApply_eq_sum dir _ _ _ _ hr ha hf hb
  · simp only [Function.update_same]
    exact incApply_eq_sum dir _ _ _ _ hr ha hf hb

/-- The incremental kernel touches only the (selected network,
perspective) slice: the dirty piece, the other network's accumulator and
the other perspective's vectors and flag are unchanged. -/
theorem update_incremental_frame (fs : FeatureSet) (ft : FeatureTransformer)
    (p : Color) (dir : IncUpdateDirection) (sel : NetSel) (ksq : Square)
    (target computed : AccumulatorState) :
    ((update_accumulator_incremental fs ft p dir sel ksq target computed).dirtyPiece
      = target.dirtyPiece) ∧
    (∀ sel₂, sel₂ ≠ sel →
      (update_accumulator_incremental fs ft p dir sel ksq target computed).acc sel₂
        = target.acc sel₂) ∧
    (∀ q, q ≠ p →
      ((update_accumulator_incremental fs ft p dir sel ksq target computed).acc
          sel).accumulation q = (target.acc sel).accumulation q ∧
      ((update_accumulator_incremental fs ft p dir sel ksq target computed).acc
          sel).psqtAccumulation q = (target.acc sel).psqtAccumulation q ∧
      ((update_accumulator_incremental fs ft p dir sel ksq target computed).acc
          sel).computed q = (target.acc sel).computed q) := by
  unfold update_accumulator_incremental
  refine ⟨dirtyPiece_setAcc _ _ _, fun sel₂ h => acc_setAcc_other _ _ h, fun q hq => ?_⟩
  rw [acc_setAcc_same]
  exact ⟨Function.update_noteq hq _ _, Function.update_noteq hq _ _,
    Function.update_noteq hq _ _⟩

/-- C4: for every computed accumulator state and every move delta with
valid index lists, incremental(FORWARD) followed by incremental(BACKWARD)
with the same delta returns the originating accumulator bytes exactly;
the 16-bit (and 32-bit PSQT) arithmetic wraps modulo 2^w (the vectors
live in ℤ/2^16 and ℤ/2^32), so overflow is not an error. -/
theorem incremental_forward_backward_roundtrip (fs : FeatureSet) (ft : FeatureTransformer)
    (p : Color) (sel : NetSel) (ksq : Square) (S T X : AccumulatorState)
    (hr : (fs.appendChangedIndices p ksq T.dirtyPiece).1.length = 1 ∨
      (fs.appendChangedIndices p ksq T.dirtyPiece).1.length = 2)
    (ha : (fs.appendChangedIndices p ksq T.dirtyPiece).2.length = 1 ∨
      (fs.appendChangedIndices p ksq T.dirtyPiece).2.length = 2)
    (hle : (fs.appendChangedIndices p ksq T.dirtyPiece).2.length ≤
      (fs.appendChangedIndices p ksq T.dirtyPiece).1.length) :
    (∀ k, ((update_accumulator_incremental fs ft p IncUpdateDirection.BACKWARD sel ksq X
        (update_accumulator_incremental fs ft p IncUpdateDirection.FORWARD sel ksq T S)).acc
          sel).accumulation p k = ((S.acc sel).accumulation p k)) ∧
    (∀ b, ((update_accumulator_incremental fs ft p IncUpdateDirection.BACKWARD sel ksq X
        (update_accumulator_incremental fs ft p IncUpdateDirection.FORWARD sel ksq T S)).acc
          sel).psqtAccumulation p b = ((S.acc sel).psqtAccumulation p b)) := by
  have hdp : (update_accumulator_incremental fs ft p IncUpdateDirection.FORWARD sel ksq
      T S).dirtyPiece = T.dirtyPiece :=
    (update_incremental_frame fs ft p IncUpdateDirection.FORWARD sel ksq T S).1
  have hlf : incLists fs p ksq IncUpdateDirection.FORWARD T S =
      fs.appendChangedIndices p ksq T.dirtyPiece := rfl
  have hlb : incLists fs p ksq IncUpdateDirection.BACKWARD X
      (update_accumulator_incremental fs ft p IncUpdateDirection.FORWARD sel ksq T S) =
      Prod.swap (fs.appendChangedIndices p ksq T.dirtyPiece) := by
    unfold incLists
    rw [hdp]
  have hFwd := update_incremental_correct fs ft p IncUpdateDirection.FORWARD sel ksq T S
    (by rw [hlf]; exact hr) (by rw [hlf]; exact ha)
    (fun _ => by rw [hlf]; exact hle) (fun h => by cases h)
  have hBwd := update_incremental_correct fs ft p IncUpdateDirection.BACKWARD sel ksq X
    (update_accumulator_incremental fs ft p IncUpdateDirection.FORWARD sel ksq T S)
    (by rw [hlb]; exact ha) (by rw [hlb]; exact hr)
    (fun h => by cases h) (fun _ => by rw [hlb]; exact hle)
  constructor
  · intro k
    have h₁ := hFwd.2.1 k
    have h₂ := hBwd.2.1 k
    rw [hlb] at h₂
    rw [hlf] at h₁
    rw [h₂]
    simp only [Prod.fst_swap, Prod.snd_swap]
    rw [h₁]
    abel
  · intro b
    have h₁ := hFwd.2.2 b
    have h₂ := hBwd.2.2 b
    rw [hlb] at h₂
    rw [hlf] at h₁
    rw [h₂]
    simp only [Prod.fst_swap, Prod.snd_swap]
    rw [h₁]
    abel

theorem coe_append_multiset {α : Type} (l₁ l₂ : List α) :
    (↑(l₁ ++ l₂) : Multiset α) = ↑l₁ + ↑l₂ :=
  (Multiset.coe_add l₁ l₂).symm

theorem coe_flatten {β : Type} (g : β → List ℕ) :
    ∀ L : List β, (↑((L.map g).flatten) : Multiset ℕ) =
      (L.map (fun b => (↑(g b) : Multiset ℕ))).sum := by
  intro L
  induction L with
  | nil => rfl
  | cons hd tl ih =>
    simp only [List.map_cons, List.flatten_cons, List.sum_cons, coe_append_multiset, ih]

theorem coe_sorted_map (bb : Bitboard) (f : Square → ℕ) :
    (↑((sortedSquares bb).map f) : Multiset ℕ) = bb.val.map f := by
  rw [← Multiset.map_coe]
  rw [sortedSquares, Finset.sort_eq]

theorem coe_refreshRemoved (fs : FeatureSet) (p : Color) (ksq : Square)
    (entry : CacheEntry) (pos : Position) :
    (↑(refreshRemoved fs p ksq entry pos) : Multiset ℕ) =
      boardFeatures fs p ksq (fun c t => entry.board c t \ pos.piecesBy c t) := by
  unfold refreshRemoved boardFeatures
  rw [coe_flatten]
  refine congrArg List.sum (List.map_congr_left (fun c _ => ?_))
  rw [coe_flatten]
  exact congrArg List.sum (List.map_congr_left (fun t _ => coe_sorted_map _ _))

theorem coe_refreshAdded (fs : FeatureSet) (p : Color) (ksq : Square)
    (entry : CacheEntry) (pos : Position) :
    (↑(refreshAdded fs p ksq entry pos) : Multiset ℕ) =
      boardFeatures fs p ksq (fun c t => pos.piecesBy c t \ entry.board c t) := by
  unfold refreshAdded boardFeatures
  rw [coe_flatten]
  refine congrArg List.sum (List.map_congr_left (fun c _ => ?_))
  rw [coe_flatten]
  exact congrArg List.sum (List.map_congr_left (fun t _ => coe_sorted_map _ _))

theorem count_finset_val (s : Finset Square) (x : Square) :
    Multiset.count x s.val = if x ∈ s then 1 else 0 := by
  by_cases h : x ∈ s
  · rw [if_pos h]
    exact Multiset.count_eq_one_of_mem s.nodup h
  · rw [if_neg h]
    exact Multiset.count_eq_zero_of_not_mem h

theorem finset_delta (A B : Finset Square) :
    B.val + (A \ B).val = A.val + (B \ A).val := by
  ext x
  simp only [Multiset.count_add, count_finset_val, Finset.mem_sdiff]
  by_cases hA : x ∈ A <;> by_cases hB : x ∈ B <;> simp [hA, hB]

theorem squareFeatures_delta (fs : FeatureSet) (p : Color) (ksq : Square) (pc : Piece)
    (A B : Bitboard) :
    squareFeatures fs p ksq pc B + squareFeatures fs p ksq pc (A \ B) =
      squareFeatures fs p ksq pc A + squareFeatures fs p ksq pc (B \ A) := by
  unfold squareFeatures
  rw [← Multiset.map_add, ← Multiset.map_add, finset_delta]

theorem boardFeatures_eq_pairSum (fs : FeatureSet) (p : Color) (ksq : Square)
    (boards : Color → PieceType → Bitboard) :
    boardFeatures fs p ksq boards =
      (allPairs.map (fun ct => squareFeatures fs p ksq ct (boards ct.1 ct.2))).sum := by
  simp only [boardFeatures, allPairs, allColors, allPieceTypes, List.map_cons, List.map_nil,
    List.flatten_cons, List.flatten_nil, List.sum_cons, List.sum_nil, List.append_nil,
    List.map_append, List.sum_append]
  abel

theorem pairSum_delta (fs : FeatureSet) (p : Color) (ksq : Square)
    (old new : Color → PieceType → Bitboard) :
    ∀ L : List Piece,
      (L.map (fun ct => squareFeatures fs p ksq ct (new ct.1 ct.2))).sum +
          (L.map (fun ct => squareFeatures fs p ksq ct (old ct.1 ct.2 \ new ct.1 ct.2))).sum =
        (L.map (fun ct => squareFeatures fs p ksq ct (old ct.1 ct.2))).sum +
          (L.map (fun ct => squareFeatures fs p ksq ct (new ct.1 ct.2 \ old ct.1 ct.2))).sum := by
  intro L
  induction L with
  | nil => simp
  | cons hd tl ih =>
    simp only [List.map_cons, List.sum_cons]
    have h := squareFeatures_delta fs p ksq hd (old hd.1 hd.2) (new hd.1 hd.2)
    calc squareFeatures fs p ksq hd (new hd.1 hd.2) +
          (tl.map (fun ct => squareFeatures fs p ksq ct (new ct.1 ct.2))).sum +
          (squareFeatures fs p ksq hd (old hd.1 hd.2 \ new hd.1 hd.2) +
            (tl.map (fun ct =>
              squareFeatures fs p ksq ct (old ct.1 ct.2 \ new ct.1 ct.2))).sum) =
        (squareFeatures fs p ksq hd (new hd.1 hd.2) +
            squareFeatures fs p ksq hd (old hd.1 hd.2 \ new hd.1 hd.2)) +
          ((tl.map (fun ct => squareFeatures fs p ksq ct (new ct.1 ct.2))).sum +
            (tl.map (fun ct =>
              squareFeatures fs p ksq ct (old ct.1 ct.2 \ new ct.1 ct.2))).sum) := by abel
      _ = (squareFeatures fs p ksq hd (old hd.1 hd.2) +
            squareFeatures fs p ksq hd (new hd.1 hd.2 \ old hd.1 hd.2)) +
          ((tl.map (fun ct => squareFeatures fs p ksq ct (old ct.1 ct.2))).sum +
            (tl.map (fun ct =>
              squareFeatures fs p ksq ct (new ct.1 ct.2 \ old ct.1 ct.2))).sum) := by
        rw [h, ih]
      _ = squareFeatures fs p ksq hd (old hd.1 hd.2) +
          (tl.map (fun ct => squareFeatures fs p ksq ct (old ct.1 ct.2))).sum +
          (squareFeatures fs p ksq hd (new hd.1 hd.2 \ old hd.1 hd.2) +
            (tl.map (fun ct =>
              squareFeatures fs p ksq ct (new ct.1 ct.2 \ old ct.1 ct.2))).sum) := by abel

theorem boardFeatures_delta (fs : FeatureSet) (p : Color) (ksq : Square)
    (old new : Color → PieceType → Bitboard) :
    boardFeatures fs p ksq new + boardFeatures fs p ksq (fun c t => old c t \ new c t) =
      boardFeatures fs p ksq old + boardFeatures fs p ksq (fun c t => new c t \ old c t) := by
  rw [boardFeatures_eq_pairSum, boardFeatures_eq_pairSum, boardFeatures_eq_pairSum,
    boardFeatures_eq_pairSum]
  exact pairSum_delta fs p ksq old new allPairs

theorem sum_map_of_multiset_eq {α : Type} [AddCommMonoid α] (w : ℕ → α)
    {M R N A : Multiset ℕ} (h : M + R = N + A) :
    (M.map w).sum + (R.map w).sum = (N.map w).sum + (A.map w).sum := by
  have h₂ := congrArg (fun S => ((Multiset.map w S).sum)) h
  simpa [Multiset.map_add, Multiset.sum_add] using h₂

theorem list_sum_to_multiset {α : Type} [AddCommMonoid α] (w : ℕ → α) (l : List ℕ) :
    (l.map w).sum = ((↑l : Multiset ℕ).map w).sum := by
  rw [Multiset.map_coe, Multiset.sum_coe]

theorem refresh_delta_sum {α : Type} [AddCommGroup α] (w : ℕ → α) (fs : FeatureSet)
    (p : Color) (ksq : Square) (entry : CacheEntry) (pos : Position) :
    ((entryFeatures fs p ksq entry).map w).sum -
        ((↑(refreshRemoved fs p ksq entry pos) : Multiset ℕ).map w).sum +
        ((↑(refreshAdded fs p ksq entry pos) : Multiset ℕ).map w).sum =
      ((boardFeatures fs p ksq pos.piecesBy).map w).sum := by
  rw [coe_refreshRemoved, coe_refreshAdded]
  have h := sum_map_of_multiset_eq w (boardFeatures_delta fs p ksq entry.board pos.piecesBy)
  have he : ((entryFeatures fs p ksq entry).map w).sum =
      ((boardFeatures fs p ksq pos.piecesBy).map w).sum +
        ((boardFeatures fs p ksq
          (fun c t => entry.board c t \ pos.piecesBy c t)).map w).sum -
        ((boardFeatures fs p ksq
          (fun c t => pos.piecesBy c t \ entry.board c t)).map w).sum :=
    eq_sub_of_add_eq h.symm
  rw [he]
  abel

theorem refresh_apply_exact (fs : FeatureSet) (ft : FeatureTransformer) (p : Color)
    (ksq : Square) (entry : CacheEntry) (pos : Position)
    (hk : ∀ k, entry.accumulation k =
      ((entryFeatures fs p ksq entry).map (fun f => ft.weights f k)).sum) :
    ∀ k, scalarRefreshApply ft (refreshRemoved fs p ksq entry pos)
        (refreshAdded fs p ksq entry pos) k (entry.accumulation k) =
      ((boardFeatures fs p ksq pos.piecesBy).map (fun f => ft.weights f k)).sum := by
  intro k
  rw [scalarRefreshApply_eq, hk k,
    list_sum_to_multiset (fun i => ft.weights i k) (refreshRemoved fs p ksq entry pos),
    list_sum_to_multiset (fun i => ft.weights i k) (refreshAdded fs p ksq entry pos)]
  exact refresh_delta_sum (fun f => ft.weights f k) fs p ksq entry pos

theorem refresh_apply_exact_psqt (fs : FeatureSet) (ft : FeatureTransformer) (p : Color)
    (ksq : Square) (entry : CacheEntry) (pos : Position)
    (hb : ∀ b, entry.psqtAccumulation b =
      ((entryFeatures fs p ksq entry).map (fun f => ft.psqtWeights f b)).sum) :
    ∀ b, scalarRefreshApplyPsqt ft (refreshRemoved fs p ksq entry pos)
        (refreshAdded fs p ksq entry pos) b (entry.psqtAccumulation b) =
      ((boardFeatures fs p ksq pos.piecesBy).map (fun f => ft.psqtWeights f b)).sum := by
  intro b
  rw [scalarRefreshApplyPsqt_eq, hb b,
    list_sum_to_multiset (fun i => ft.psqtWeights i b) (refreshRemoved fs p ksq entry pos),
    list_sum_to_multiset (fun i => ft.psqtWeights i b) (refreshAdded fs p ksq entry pos)]
  exact refresh_delta_sum (fun f => ft.psqtWeights f b) fs p ksq entry pos

theorem refresh_state_spec (fs : FeatureSet) (ft : FeatureTransformer) (p : Color)
    (sel : NetSel) (pos : Position) (st : AccumulatorState) (cache : Cache)
    (hent : EntryInv fs ft (pos.kingSq p) p (cache (pos.kingSq p) p)) :
    (((update_accumulator_refresh_cache fs ft p sel pos st cache).1.acc sel).computed p
      = true) ∧
    (∀ k, ((update_accumulator_refresh_cache fs ft p sel pos st cache).1.acc
      sel).accumulation p k = fullAccum fs ft pos p k) ∧
    (∀ b, ((update_accumulator_refresh_cache fs ft p sel pos st cache).1.acc
      sel).psqtAccumulation p b = fullPsqt fs ft pos p b) := by
  obtain ⟨hk, hb⟩ := hent
  simp only [update_accumulator_refresh_cache]
  rw [acc_setAcc_same]
  refine ⟨by simp, fun k => ?_, fun b => ?_⟩
  · simp only [Function.update_same]
    exact refresh_apply_exact fs ft p (pos.kingSq p) _ pos hk k
  · simp only [Function.update_same]
    exact refresh_apply_exact_psqt fs ft p (pos.kingSq p) _ pos hb b

/-- The refresh kernel touches only the (selected network, perspective)
slice of the state and only the (king-square, perspective) cache entry. -/
theorem refresh_frame (fs : FeatureSet) (ft : FeatureTransformer) (p : Color)
    (sel : NetSel) (pos : Position) (st : AccumulatorState) (cache : Cache) :
    ((update_accumulator_refresh_cache fs ft p sel pos st cache).1.dirtyPiece
      = st.dirtyPiece) ∧
    (∀ sel₂, sel₂ ≠ sel →
      (update_accumulator_refresh_cache fs ft p sel pos st cache).1.acc sel₂ = st.acc sel₂) ∧
    (∀ q, q ≠ p →
      ((update_accumulator_refresh_cache fs ft p sel pos st cache).1.acc sel).accumulation q
          = (st.acc sel).accumulation q ∧
      ((update_accumulator_refresh_cache fs ft p sel pos st cache).1.acc
          sel).psqtAccumulation q = (st.acc sel).psqtAccumulation q ∧
      ((update_accumulator_refresh_cache fs ft p sel pos st cache).1.acc sel).computed q
          = (st.acc sel).computed q) ∧
    (∀ sq c, ¬(sq = pos.kingSq p ∧ c = p) →
      (update_accumulator_refresh_cache fs ft p sel pos st cache).2 sq c = cache sq c) := by
  simp only [update_accumulator_refresh_cache]
  refine ⟨dirtyPiece_setAcc _ _ _, fun sel₂ h => acc_setAcc_other _ _ h, fun q hq => ?_,
    fun sq c h => ?_⟩
  · rw [acc_setAcc_same]
    exact ⟨Function.update_noteq hq _ _, Function.update_noteq hq _ _,
      Function.update_noteq hq _ _⟩
  · exact if_neg h

theorem wf_mem_resolve (pos : Position) (hwf : pos.WellFormed) {x : Square}
    {c t₁ c₂ t : _} (h₁ : x ∈ pos.piecesBy c t₁) (h₂ : x ∈ pos.piecesBy c₂ t) :
    x ∈ pos.piecesBy c t := by
  by_cases he : ((c, t₁) : Piece) = (c₂, t)
  · rw [Prod.mk.injEq] at he
    obtain ⟨hc, ht⟩ := he
    rw [ht] at h₁
    exact h₁
  · exact absurd h₂ (Finset.disjoint_left.mp (hwf c t₁ c₂ t he) h₁)

theorem wellFormed_inter (pos : Position) (hwf : pos.WellFormed) (c : Color)
    (t : PieceType) : pos.piecesColor c ∩ pos.piecesType t = pos.piecesBy c t := by
  ext x
  constructor
  · intro hx
    obtain ⟨hx₁, hx₂⟩ := Finset.mem_inter.mp hx
    simp only [Position.piecesColor, Finset.mem_union] at hx₁
    simp only [Position.piecesType, Finset.mem_union] at hx₂
    rcases hx₁ with ((((h | h) | h) | h) | h) | h <;> rcases hx₂ with h₂ | h₂ <;>
      exact wf_mem_resolve pos hwf h h₂
  · intro hx
    refine Finset.mem_inter.mpr ⟨?_, ?_⟩
    · cases t <;> simp [Position.piecesColor, Finset.mem_union, hx]
    · cases c <;> simp [Position.piecesType, Finset.mem_union, hx]

theorem refresh_entry_inv (fs : FeatureSet) (ft : FeatureTransformer) (p : Color)
    (sel : NetSel) (pos : Position) (st : AccumulatorState) (cache : Cache)
    (hent : EntryInv fs ft (pos.kingSq p) p (cache (pos.kingSq p) p))
    (hwf : pos.WellFormed) :
    EntryInv fs ft (pos.kingSq p) p
      ((update_accumulator_refresh_cache fs ft p sel pos st cache).2 (pos.kingSq p) p) := by
  obtain ⟨hk, hb⟩ := hent
  simp only [update_accumulator_refresh_cache, and_self, if_true]
  have hboards : (fun c t => pos.piecesColor c ∩ pos.piecesType t) = pos.piecesBy :=
    funext (fun c => funext (fun t => wellFormed_inter pos hwf c t))
  have hfeat : entryFeatures fs p (pos.kingSq p)
      { accumulation := fun k => scalarRefreshApply ft
          (refreshRemoved fs p (pos.kingSq p) (cache (pos.kingSq p) p) pos)
          (refreshAdded fs p (pos.kingSq p) (cache (pos.kingSq p) p) pos) k
          ((cache (pos.kingSq p) p).accumulation k)
        psqtAccumulation := fun b => scalarRefreshApplyPsqt ft
          (refreshRemoved fs p (pos.kingSq p) (cache (pos.kingSq p) p) pos)
          (refreshAdded fs p (pos.kingSq p) (cache (pos.kingSq p) p) pos) b
          ((cache (pos.kingSq p) p).psqtAccumulation b)
        byColorBB := fun c => pos.piecesColor c
        byTypeBB := fun t => pos.piecesType t } =
      boardFeatures fs p (pos.kingSq p) pos.piecesBy := by
    show boardFeatures fs p (pos.kingSq p)
      (fun c t => pos.piecesColor c ∩ pos.piecesType t) = _
    rw [hboards]
  constructor
  · intro k
    rw [hfeat]
    exact refresh_apply_exact fs ft p (pos.kingSq p) _ pos hk k
  · intro b
    rw [hfeat]
    exact refresh_apply_exact_psqt fs ft p (pos.kingSq p) _ pos hb b

theorem refresh_cache_inv (fs : FeatureSet) (ft : FeatureTransformer) (p : Color)
    (sel : NetSel) (pos : Position) (st : AccumulatorState) (cache : Cache)
    (hcache : CacheInv fs ft cache) (hwf : pos.WellFormed) :
    CacheInv fs ft (update_accumulator_refresh_cache fs ft p sel pos st cache).2 := by
  intro sq c
  by_cases h : sq = pos.kingSq p ∧ c = p
  · obtain ⟨rfl, rfl⟩ := h
    exact refresh_entry_inv fs ft c sel pos st cache (hcache _ _) hwf
  · rw [(refresh_frame fs ft p sel pos st cache).2.2.2 sq c h]
    exact hcache sq c

theorem findLastFrom_le (stk : AccumulatorStack) (fs : FeatureSet) (p : Color)
    (sel : NetSel) : ∀ i, findLastFrom stk fs p sel i ≤ i := by
  intro i
  induction i with
  | zero => exact le_rfl
  | succ i ih =>
    rw [findLastFrom]
    split
    · exact le_rfl
    · split
      · exact le_rfl
      · exact Nat.le_succ_of_le ih

theorem findLastFrom_usable (stk : AccumulatorStack) (fs : FeatureSet) (p : Color)
    (sel : NetSel) :
    ∀ i, findLastFrom stk fs p sel i = 0 ∨
      usableAt stk fs p sel (findLastFrom stk fs p sel i) := by
  intro i
  induction i with
  | zero => exact Or.inl rfl
  | succ i ih =>
    rw [findLastFrom]
    split
    · rename_i h
      exact Or.inr (Or.inl h)
    · split
      · rename_i h
        exact Or.inr (Or.inr h)
      · exact ih

theorem findLastFrom_max (stk : AccumulatorStack) (fs : FeatureSet) (p : Color)
    (sel : NetSel) :
    ∀ i j, findLastFrom stk fs p sel i < j → j ≤ i → ¬usableAt stk fs p sel j := by
  intro i
  induction i with
  | zero => intro j h₁ h₂; omega
  | succ i ih =>
    intro j h₁ h₂
    rw [findLastFrom] at h₁
    by_cases hc : ((stk.m_accumulators (i + 1)).acc sel).computed p = true
    · rw [if_pos hc] at h₁; omega
    · rw [if_neg hc] at h₁
      by_cases hrr : fs.requiresRefresh (stk.m_accumulators (i + 1)).dirtyPiece p = true
      · rw [if_pos hrr] at h₁; omega
      · rw [if_neg hrr] at h₁
        rcases Nat.lt_or_ge j (i + 1) with hj | hj
        · exact ih j h₁ (by omega)
        · have hji : j = i + 1 := by omega
          subst hji
          intro hu
          rcases hu with hu | hu
          · exact hc hu
          · exact hrr hu

/-- C5: `evaluate_side` selects k as the largest stack index ≤
`m_current_idx − 1` whose state is computed for the perspective or (for
k > 0) whose dirty piece requires a refresh, defaulting to 0; if
`states[k]` is computed it forward-propagates over (k, current_idx),
otherwise it refreshes the latest state from the cache and
backward-propagates from `current_idx − 2` down to k using the
successors' dirty pieces. -/
theorem evaluate_side_branches (stk : AccumulatorStack) (fs : FeatureSet) (p : Color)
    (sel : NetSel) :
    (stk.find_last_usable_accumulator fs p sel ≤ stk.m_current_idx - 1) ∧
    (stk.find_last_usable_accumulator fs p sel = 0 ∨
      usableAt stk fs p sel (stk.find_last_usable_accumulator fs p sel)) ∧
    (∀ j, stk.find_last_usable_accumulator fs p sel < j → j ≤ stk.m_current_idx - 1 →
      ¬usableAt stk fs p sel j) ∧
    (∀ (ft : FeatureTransformer) (pos : Position) (cache : Cache),
      stk.evaluate_side fs ft p sel pos cache =
        if ((stk.m_accumulators (stk.find_last_usable_accumulator fs p sel)).acc
            sel).computed p = true then
          (stk.forward_update_incremental fs ft p sel pos
            (stk.find_last_usable_accumulator fs p sel), cache)
        else
          ({ stk with
              m_accumulators := Function.update stk.m_accumulators (stk.m_current_idx - 1)
                (update_accumulator_refresh_cache fs ft p sel pos stk.latest
                  cache).1 }.backward_update_incremental fs ft p sel pos
            (stk.find_last_usable_accumulator fs p sel),
           (update_accumulator_refresh_cache fs ft p sel pos stk.latest cache).2)) := by
  refine ⟨findLastFrom_le stk fs p sel _, findLastFrom_usable stk fs p sel _,
    fun j h₁ h₂ => findLastFrom_max stk fs p sel _ j h₁ h₂, fun ft pos cache => ?_⟩
  rw [AccumulatorStack.evaluate_side]

theorem evaluate_side_cache_inv (stk : AccumulatorStack) (fs : FeatureSet)
    (ft : FeatureTransformer) (p : Color) (sel : NetSel) (pos : Position) (cache : Cache)
    (hcache : CacheInv fs ft cache) (hwf : pos.WellFormed) :
    CacheInv fs ft (stk.evaluate_side fs ft p sel pos cache).2 := by
  rw [AccumulatorStack.evaluate_side]
  split
  · exact hcache
  · exact refresh_cache_inv fs ft p sel pos stk.latest cache hcache hwf

theorem evaluate_cache_inv (stk : AccumulatorStack) (fs : FeatureSet)
    (ft : FeatureTransformer) (sel : NetSel) (pos : Position) (cache : Cache)
    (hcache : CacheInv fs ft cache) (hwf : pos.WellFormed) :
    CacheInv fs ft (stk.evaluate fs ft sel pos cache).2 := by
  rw [AccumulatorStack.evaluate]
  exact evaluate_side_cache_inv _ fs ft Color.black sel pos _
    (evaluate_side_cache_inv stk fs ft Color.white sel pos cache hcache hwf) hwf

theorem step_cache_inv (fs : FeatureSet) (fts : NetSel → FeatureTransformer)
    (s : SysState) (op : Op) (hidx : 1 ≤ s.stk.m_current_idx)
    (hwf : ∀ i, i < s.stk.m_current_idx → (s.positions i).WellFormed)
    (hcache : ∀ sel, CacheInv fs (fts sel) (s.caches sel)) :
    ∀ sel, CacheInv fs (fts sel) ((step fs fts s op).caches sel) := by
  cases op with
  | push dp newPos => exact hcache
  | pop => exact hcache
  | eval sel₀ =>
    intro sel
    simp only [step]
    by_cases h : sel = sel₀
    · subst h
      rw [Function.update_same]
      exact evaluate_cache_inv _ fs (fts sel) sel _ _ (hcache sel)
        (hwf _ (by omega))
    · rw [Function.update_noteq h]
      exact hcache sel

theorem incLists_fwd (fs : FeatureSet) (p : Color) (ksq : Square)
    (t s : AccumulatorState) :
    incLists fs p ksq IncUpdateDirection.FORWARD t s =
      fs.appendChangedIndices p ksq t.dirtyPiece := rfl

theorem incLists_bwd (fs : FeatureSet) (p : Color) (ksq : Square)
    (t s : AccumulatorState) :
    incLists fs p ksq IncUpdateDirection.BACKWARD t s =
      Prod.swap (fs.appendChangedIndices p ksq s.dirtyPiece) := rfl

theorem inc_forward_exact (fs : FeatureSet) (ft : FeatureTransformer) (p : Color)
    (sel : NetSel) (ksq : Square) (posB posA : Position)
    (target source : AccumulatorState)
    (hnr : fs.requiresRefresh target.dirtyPiece p = false)
    (hcons : DeltaConsistent fs p target.dirtyPiece posB posA)
    (hksq : posA.kingSq p = ksq)
    (hsrc : ExactAt fs ft posB p (source.acc sel)) :
    (((update_accumulator_incremental fs ft p IncUpdateDirection.FORWARD sel ksq target
      source).acc sel).computed p = true) ∧
    ExactAt fs ft posA p
      ((update_accumulator_incremental fs ft p IncUpdateDirection.FORWARD sel ksq target
        source).acc sel) := by
  obtain ⟨hking, hr, ha, hle, hms⟩ := hcons hnr
  rw [hksq] at hr ha hle hms
  have hkB : posB.kingSq p = ksq := by rw [← hking, hksq]
  rw [hkB] at hms
  have hcorr := update_incremental_correct fs ft p IncUpdateDirection.FORWARD sel ksq
    target source hr ha (fun _ => hle) (fun h => by cases h)
  refine ⟨hcorr.1, fun k => ?_, fun b => ?_⟩
  · rw [hcorr.2.1 k, hsrc.1 k]
    rw [fullAccum, fullAccum, hksq, hkB]
    have hsum := sum_map_of_multiset_eq (fun f => ft.weights f k) hms
    have hgoal : ((activeFeatures fs posA p ksq).map (fun f => ft.weights f k)).sum =
        ((activeFeatures fs posB p ksq).map (fun f => ft.weights f k)).sum +
          (((fs.appendChangedIndices p ksq target.dirtyPiece).2 : Multiset ℕ).map
            (fun f => ft.weights f k)).sum -
          (((fs.appendChangedIndices p ksq target.dirtyPiece).1 : Multiset ℕ).map
            (fun f => ft.weights f k)).sum := by
      rw [eq_sub_iff_add_eq]
      exact hsum
    rw [hgoal, incLists_fwd, list_sum_to_multiset, list_sum_to_multiset]
  · rw [hcorr.2.2 b, hsrc.2 b]
    rw [fullPsqt, fullPsqt, hksq, hkB]
    have hsum := sum_map_of_multiset_eq (fun f => ft.psqtWeights f b) hms
    have hgoal : ((activeFeatures fs posA p ksq).map (fun f => ft.psqtWeights f b)).sum =
        ((activeFeatures fs posB p ksq).map (fun f => ft.psqtWeights f b)).sum +
          (((fs.appendChangedIndices p ksq target.dirtyPiece).2 : Multiset ℕ).map
            (fun f => ft.psqtWeights f b)).sum -
          (((fs.appendChangedIndices p ksq target.dirtyPiece).1 : Multiset ℕ).map
            (fun f => ft.psqtWeights f b)).sum := by
      rw [eq_sub_iff_add_eq]
      exact hsum
    rw [hgoal, incLists_fwd, list_sum_to_multiset, list_sum_to_multiset]

theorem inc_backward_exact (fs : FeatureSet) (ft : FeatureTransformer) (p : Color)
    (sel : NetSel) (ksq : Square) (posB posA : Position)
    (target source : AccumulatorState)
    (hnr : fs.requiresRefresh source.dirtyPiece p = false)
    (hcons : DeltaConsistent fs p source.dirtyPiece posB posA)
    (hksq : posA.kingSq p = ksq)
    (hsrc : ExactAt fs ft posA p (source.acc sel)) :
    (((update_accumulator_incremental fs ft p IncUpdateDirection.BACKWARD sel ksq target
      source).acc sel).computed p = true) ∧
    ExactAt fs ft posB p
      ((update_accumulator_incremental fs ft p IncUpdateDirection.BACKWARD sel ksq target
        source).acc sel) := by
  obtain ⟨hking, hr, ha, hle, hms⟩ := hcons hnr
  rw [hksq] at hr ha hle hms
  have hkB : posB.kingSq p = ksq := by rw [← hking, hksq]
  rw [hkB] at hms
  have hcorr := update_incremental_correct fs ft p IncUpdateDirection.BACKWARD sel ksq
    target source (by rw [incLists_bwd]; exact ha) (by rw [incLists_bwd]; exact hr)
    (fun h => by cases h) (fun _ => by rw [incLists_bwd]; exact hle)
  refine ⟨hcorr.1, fun k => ?_, fun b => ?_⟩
  · rw [hcorr.2.1 k, hsrc.1 k]
    rw [fullAccum, fullAccum, hksq, hkB]
    have hsum := sum_map_of_multiset_eq (fun f => ft.weights f k) hms
    have hgoal : ((activeFeatures fs posB p ksq).map (fun f => ft.weights f k)).sum =
        ((activeFeatures fs posA p ksq).map (fun f => ft.weights f k)).sum +
          (((fs.appendChangedIndices p ksq source.dirtyPiece).1 : Multiset ℕ).map
            (fun f => ft.weights f k)).sum -
          (((fs.appendChangedIndices p ksq source.dirtyPiece).2 : Multiset ℕ).map
            (fun f => ft.weights f k)).sum := by
      rw [eq_sub_iff_add_eq]
      rw [← hsum]
    rw [hgoal, incLists_bwd]
    simp only [Prod.fst_swap, Prod.snd_swap]
    rw [list_sum_to_multiset, list_sum_to_multiset]
  · rw [hcorr.2.2 b, hsrc.2 b]
    rw [fullPsqt, fullPsqt, hksq, hkB]
    have hsum := sum_map_of_multiset_eq (fun f => ft.psqtWeights f b) hms
    have hgoal : ((activeFeatures fs posB p ksq).map (fun f => ft.psqtWeights f b)).sum =
        ((activeFeatures fs posA p ksq).map (fun f => ft.psqtWeights f b)).sum +
          (((fs.appendChangedIndices p ksq source.dirtyPiece).1 : Multiset ℕ).map
            (fun f => ft.psqtWeights f b)).sum -
          (((fs.appendChangedIndices p ksq source.dirtyPiece).2 : Multiset ℕ).map
            (fun f => ft.psqtWeights f b)).sum := by
      rw [eq_sub_iff_add_eq]
      rw [← hsum]
    rw [hgoal, incLists_bwd]
    simp only [Prod.fst_swap, Prod.snd_swap]
    rw [list_sum_to_multiset, list_sum_to_multiset]

theorem forwardSteps_spec (fs : FeatureSet) (ft : FeatureTransformer) (p : Color)
    (sel : NetSel) (ksq : Square) (positions : ℕ → Position) :
    ∀ (n : ℕ) (accs : ℕ → AccumulatorState) (b : ℕ),
    ExactAt fs ft (positions b) p ((accs b).acc sel) →
    (∀ j, b < j → j ≤ b + n →
      fs.requiresRefresh ((accs j).dirtyPiece) p = false ∧
      DeltaConsistent fs p ((accs j).dirtyPiece) (positions (j - 1)) (positions j)) →
    (∀ j, b ≤ j → j ≤ b + n → (positions j).kingSq p = ksq) →
    (∀ j, b < j → j ≤ b + n →
      ((forwardSteps fs ft p sel ksq n accs b j).acc sel).computed p = true ∧
      ExactAt fs ft (positions j) p ((forwardSteps fs ft p sel ksq n accs b j).acc sel)) ∧
    (∀ j, j ≤ b ∨ b + n < j → forwardSteps fs ft p sel ksq n accs b j = accs j) ∧
    (∀ j, (forwardSteps fs ft p sel ksq n accs b j).dirtyPiece = (accs j).dirtyPiece) ∧
    (∀ j sel₂, sel₂ ≠ sel →
      (forwardSteps fs ft p sel ksq n accs b j).acc sel₂ = (accs j).acc sel₂) ∧
    (∀ j q, q ≠ p →
      ((forwardSteps fs ft p sel ksq n accs b j).acc sel).accumulation q
          = ((accs j).acc sel).accumulation q ∧
      ((forwardSteps fs ft p sel ksq n accs b j).acc sel).psqtAccumulation q
          = ((accs j).acc sel).psqtAccumulation q ∧
      ((forwardSteps fs ft p sel ksq n accs b j).acc sel).computed q
          = ((accs j).acc sel).computed q) := by
  intro n
  induction n with
  | zero =>
    intro accs b hex hcons hkings
    refine ⟨fun j h₁ h₂ => absurd h₂ (by omega), fun j _ => rfl, fun j => rfl,
      fun j _ _ => rfl, fun j q _ => ⟨rfl, rfl, rfl⟩⟩
  | succ n ih =>
    intro accs b hex hcons hkings
    have hd := hcons (b + 1) (by omega) (by omega)
    have hd₂ : DeltaConsistent fs p ((accs (b + 1)).dirtyPiece) (positions b)
        (positions (b + 1)) := by
      have := hd.2
      rwa [Nat.add_sub_cancel] at this
    have hstep := inc_forward_exact fs ft p sel ksq (positions b) (positions (b + 1))
      (accs (b + 1)) (accs b) hd.1 hd₂ (hkings (b + 1) (by omega) (by omega)) hex
    have hframe := update_incremental_frame fs ft p IncUpdateDirection.FORWARD sel ksq
      (accs (b + 1)) (accs b)
    have hrw : forwardSteps fs ft p sel ksq (n + 1) accs b =
        forwardSteps fs ft p sel ksq n
          (Function.update accs (b + 1)
            (update_accumulator_incremental fs ft p IncUpdateDirection.FORWARD sel ksq
              (accs (b + 1)) (accs b))) (b + 1) := rfl
    have hacc₂ : ∀ j, j ≠ b + 1 →
        Function.update accs (b + 1)
          (update_accumulator_incremental fs ft p IncUpdateDirection.FORWARD sel ksq
            (accs (b + 1)) (accs b)) j = accs j := fun j hj => Function.update_noteq hj _ _
    have hupd : Function.update accs (b + 1)
        (update_accumulator_incremental fs ft p IncUpdateDirection.FORWARD sel ksq
          (accs (b + 1)) (accs b)) (b + 1) =
        update_accumulator_incremental fs ft p IncUpdateDirection.FORWARD sel ksq
          (accs (b + 1)) (accs b) := Function.update_same _ _ _
    have hIH := ih (Function.update accs (b + 1)
        (update_accumulator_incremental fs ft p IncUpdateDirection.FORWARD sel ksq
          (accs (b + 1)) (accs b))) (b + 1)
      (by rw [hupd]; exact hstep.2)
      (by
        intro j h₁ h₂
        rw [hacc₂ j (by omega)]
        exact hcons j (by omega) (by omega))
      (by
        intro j h₁ h₂
        exact hkings j (by omega) (by omega))
    rw [hrw]
    refine ⟨?_, ?_, ?_, ?_, ?_⟩
    · intro j h₁ h₂
      by_cases hj : j = b + 1
      · subst hj
        rw [hIH.2.1 (b + 1) (Or.inl le_rfl), hupd]
        exact ⟨hstep.1, hstep.2⟩
      · exact hIH.1 j (by omega) (by omega)
    · intro j hj
      rw [hIH.2.1 j (by omega), hacc₂ j (by omega)]
    · intro j
      by_cases hj : j = b + 1
      · subst hj
        rw [hIH.2.2.1 (b + 1), hupd]
        exact hframe.1
      · rw [hIH.2.2.1 j, hacc₂ j hj]
    · intro j sel₂ hs
      by_cases hj : j = b + 1
      · subst hj
        rw [hIH.2.2.2.1 (b + 1) sel₂ hs, hupd]
        exact hframe.2.1 sel₂ hs
      · rw [hIH.2.2.2.1 j sel₂ hs, hacc₂ j hj]
    · intro j q hq
      by_cases hj : j = b + 1
      · subst hj
        have h₁ := hIH.2.2.2.2 (b + 1) q hq
        rw [hupd] at h₁
        have h₂ := hframe.2.2 q hq
        exact ⟨h₁.1.trans h₂.1, h₁.2.1.trans h₂.2.1, h₁.2.2.trans h₂.2.2⟩
      · have h₁ := hIH.2.2.2.2 j q hq
        rw [hacc₂ j hj] at h₁
        exact h₁

theorem backwardSteps_spec (fs : FeatureSet) (ft : FeatureTransformer) (p : Color)
    (sel : NetSel) (ksq : Square) (positions : ℕ → Position) :
    ∀ (n : ℕ) (accs : ℕ → AccumulatorState) (e : ℕ),
    ExactAt fs ft (positions (e + n)) p ((accs (e + n)).acc sel) →
    (∀ i, e ≤ i → i < e + n →
      fs.requiresRefresh ((accs (i + 1)).dirtyPiece) p = false ∧
      DeltaConsistent fs p ((accs (i + 1)).dirtyPiece) (positions i) (positions (i + 1))) →
    (∀ i, e ≤ i → i ≤ e + n → (positions i).kingSq p = ksq) →
    (∀ i, e ≤ i → i < e + n →
      ((backwardSteps fs ft p sel ksq n accs (e + n - 1) i).acc sel).computed p = true ∧
      ExactAt fs ft (positions i) p
        ((backwardSteps fs ft p sel ksq n accs (e + n - 1) i).acc sel)) ∧
    (∀ i, i < e ∨ e + n ≤ i → backwardSteps fs ft p sel ksq n accs (e + n - 1) i = accs i) ∧
    (∀ i, (backwardSteps fs ft p sel ksq n accs (e + n - 1) i).dirtyPiece
      = (accs i).dirtyPiece) ∧
    (∀ i sel₂, sel₂ ≠ sel →
      (backwardSteps fs ft p sel ksq n accs (e + n - 1) i).acc sel₂ = (accs i).acc sel₂) ∧
    (∀ i q, q ≠ p →
      ((backwardSteps fs ft p sel ksq n accs (e + n - 1) i).acc sel).accumulation q
          = ((accs i).acc sel).accumulation q ∧
      ((backwardSteps fs ft p sel ksq n accs (e + n - 1) i).acc sel).psqtAccumulation q
          = ((accs i).acc sel).psqtAccumulation q ∧
      ((backwardSteps fs ft p sel ksq n accs (e + n - 1) i).acc sel).computed q
          = ((accs i).acc sel).computed q) := by
  intro n
  induction n with
  | zero =>
    intro accs e hex hcons hkings
    refine ⟨fun i h₁ h₂ => absurd h₂ (by omega), fun i _ => rfl, fun i => rfl,
      fun i _ _ => rfl, fun i q _ => ⟨rfl, rfl, rfl⟩⟩
  | succ n ih =>
    intro accs e hex hcons hkings
    have hd := hcons (e + n) (by omega) (by omega)
    have hstep := inc_backward_exact fs ft p sel ksq (positions (e + n))
      (positions (e + n + 1)) (accs (e + n)) (accs (e + n + 1)) hd.1 hd.2
      (hkings (e + n + 1) (by omega) (by omega)) (by
        have h : e + (n + 1) = e + n + 1 := by omega
        rw [h] at hex
        exact hex)
    have hframe := update_incremental_frame fs ft p IncUpdateDirection.BACKWARD sel ksq
      (accs (e + n)) (accs (e + n + 1))
    have hstart : e + (n + 1) - 1 = e + n := by omega
    have hrw : backwardSteps fs ft p sel ksq (n + 1) accs (e + (n + 1) - 1) =
        backwardSteps fs ft p sel ksq n
          (Function.update accs (e + n)
            (update_accumulator_incremental fs ft p IncUpdateDirection.BACKWARD sel ksq
              (accs (e + n)) (accs (e + n + 1)))) (e + n - 1) := by
      rw [hstart]
      rfl
    have hacc₂ : ∀ i, i ≠ e + n →
        Function.update accs (e + n)
          (update_accumulator_incremental fs ft p IncUpdateDirection.BACKWARD sel ksq
            (accs (e + n)) (accs (e + n + 1))) i = accs i :=
      fun i hi => Function.update_noteq hi _ _
    have hupd : Function.update accs (e + n)
        (update_accumulator_incremental fs ft p IncUpdateDirection.BACKWARD sel ksq
          (accs (e + n)) (accs (e + n + 1))) (e + n) =
        update_accumulator_incremental fs ft p IncUpdateDirection.BACKWARD sel ksq
          (accs (e + n)) (accs (e + n + 1)) := Function.update_same _ _ _
    have hdirty₂ : ∀ i, (Function.update accs (e + n)
        (update_accumulator_incremental fs ft p IncUpdateDirection.BACKWARD sel ksq
          (accs (e + n)) (accs (e + n + 1))) i).dirtyPiece = (accs i).dirtyPiece := by
      intro i
      by_cases hi : i = e + n
      · subst hi
        rw [hupd]
        exact hframe.1
      · rw [hacc₂ i hi]
    have hIH := ih (Function.update accs (e + n)
        (update_accumulator_incremental fs ft p IncUpdateDirection.BACKWARD sel ksq
          (accs (e + n)) (accs (e + n + 1)))) e
      (by rw [hupd]; exact hstep.2)
      (by
        intro i h₁ h₂
        rw [hdirty₂ (i + 1)]
        exact hcons i (by omega) (by omega))
      (by
        intro i h₁ h₂
        exact hkings i (by omega) (by omega))
    rw [hrw]
    refine ⟨?_, ?_, ?_, ?_, ?_⟩
    · intro i h₁ h₂
      by_cases hi : i = e + n
      · subst hi
        rw [hIH.2.1 (e + n) (Or.inr le_rfl), hupd]
        exact ⟨hstep.1, hstep.2⟩
      · exact hIH.1 i (by omega) (by omega)
    · intro i hi
      rw [hIH.2.1 i (by omega), hacc₂ i (by omega)]
    · intro i
      rw [hIH.2.2.1 i, hdirty₂ i]
    · intro i sel₂ hs
      by_cases hi : i = e + n
      · subst hi
        rw [hIH.2.2.2.1 (e + n) sel₂ hs, hupd]
        exact hframe.2.1 sel₂ hs
      · rw [hIH.2.2.2.1 i sel₂ hs, hacc₂ i hi]
    · intro i q hq
      by_cases hi : i = e + n
      · subst hi
        have h₁ := hIH.2.2.2.2 (e + n) q hq
        rw [hupd] at h₁
        have h₂ := hframe.2.2 q hq
        exact ⟨h₁.1.trans h₂.1, h₁.2.1.trans h₂.2.1, h₁.2.2.trans h₂.2.2⟩
      · have h₁ := hIH.2.2.2.2 i q hq
        rw [hacc₂ i hi] at h₁
        exact h₁

theorem king_chain (fs : FeatureSet) (p : Color) (sel : NetSel) (stk : AccumulatorStack)
    (positions : ℕ → Position) (hidx : 1 ≤ stk.m_current_idx)
    (hcons : ∀ i, 1 ≤ i → i < stk.m_current_idx →
      DeltaConsistent fs p ((stk.m_accumulators i).dirtyPiece)
        (positions (i - 1)) (positions i)) :
    ∀ j, stk.find_last_usable_accumulator fs p sel ≤ j → j ≤ stk.m_current_idx - 1 →
      (positions j).kingSq p = (positions (stk.m_current_idx - 1)).kingSq p := by
  suffices h : ∀ d j, j + d = stk.m_current_idx - 1 →
      stk.find_last_usable_accumulator fs p sel ≤ j →
      (positions j).kingSq p = (positions (stk.m_current_idx - 1)).kingSq p by
    intro j h₁ h₂
    exact h (stk.m_current_idx - 1 - j) j (by omega) h₁
  intro d
  induction d with
  | zero =>
    intro j hj _
    have hj₂ : j = stk.m_current_idx - 1 := by omega
    rw [hj₂]
  | succ d ihd =>
    intro j hj hk
    have hk' : findLastFrom stk fs p sel (stk.m_current_idx - 1) ≤ j := hk
    have hju : ¬usableAt stk fs p sel (j + 1) :=
      findLastFrom_max stk fs p sel (stk.m_current_idx - 1) (j + 1) (by omega) (by omega)
    have hnr : fs.requiresRefresh (stk.m_accumulators (j + 1)).dirtyPiece p = false := by
      cases hb : fs.requiresRefresh (stk.m_accumulators (j + 1)).dirtyPiece p
      · rfl
      · exact absurd (Or.inr hb) hju
    have hc := hcons (j + 1) (by omega) (by omega)
    have hk₂ := (hc hnr).1
    rw [Nat.add_sub_cancel] at hk₂
    rw [← hk₂]
    exact ihd (j + 1) (by omega) (by omega)

theorem evaluate_side_invariant (fs : FeatureSet) (ft : FeatureTransformer) (p : Color)
    (sel : NetSel) (stk : AccumulatorStack) (cache : Cache) (positions : ℕ → Position)
    (hidx : 1 ≤ stk.m_current_idx)
    (hroot : ∀ p₂, ((stk.m_accumulators 0).acc sel).computed p₂ = true)
    (hexact : ∀ i, i < stk.m_current_idx →
      ((stk.m_accumulators i).acc sel).computed p = true →
      ExactAt fs ft (positions i) p ((stk.m_accumulators i).acc sel))
    (hcons : ∀ i, 1 ≤ i → i < stk.m_current_idx →
      DeltaConsistent fs p ((stk.m_accumulators i).dirtyPiece)
        (positions (i - 1)) (positions i))
    (hwfcur : (positions (stk.m_current_idx - 1)).WellFormed)
    (hcache : CacheInv fs ft cache) :
    ((stk.evaluate_side fs ft p sel (positions (stk.m_current_idx - 1)) cache).1.m_current_idx
      = stk.m_current_idx) ∧
    ((stk.evaluate_side fs ft p sel (positions (stk.m_current_idx - 1)) cache).1.capacity
      = stk.capacity) ∧
    (∀ i, ((stk.evaluate_side fs ft p sel (positions (stk.m_current_idx - 1))
        cache).1.m_accumulators i).dirtyPiece = (stk.m_accumulators i).dirtyPiece) ∧
    (∀ i sel₂, sel₂ ≠ sel →
      ((stk.evaluate_side fs ft p sel (positions (stk.m_current_idx - 1))
        cache).1.m_accumulators i).acc sel₂ = (stk.m_accumulators i).acc sel₂) ∧
    (∀ i q, q ≠ p →
      (((stk.evaluate_side fs ft p sel (positions (stk.m_current_idx - 1))
          cache).1.m_accumulators i).acc sel).accumulation q
        = ((stk.m_accumulators i).acc sel).accumulation q ∧
      (((stk.evaluate_side fs ft p sel (positions (stk.m_current_idx - 1))
          cache).1.m_accumulators i).acc sel).psqtAccumulation q
        = ((stk.m_accumulators i).acc sel).psqtAccumulation q ∧
      (((stk.evaluate_side fs ft p sel (positions (stk.m_current_idx - 1))
          cache).1.m_accumulators i).acc sel).computed q
        = ((stk.m_accumulators i).acc sel).computed q) ∧
    (∀ i, i < stk.m_current_idx →
      (((stk.evaluate_side fs ft p sel (positions (stk.m_current_idx - 1))
          cache).1.m_accumulators i).acc sel).computed p = true →
      ExactAt fs ft (positions i) p
        (((stk.evaluate_side fs ft p sel (positions (stk.m_current_idx - 1))
          cache).1.m_accumulators i).acc sel)) ∧
    ((((stk.evaluate_side fs ft p sel (positions (stk.m_current_idx - 1))
        cache).1.m_accumulators (stk.m_current_idx - 1)).acc sel).computed p = true) ∧
    ((stk.evaluate_side fs ft p sel (positions (stk.m_current_idx - 1))
        cache).1.m_accumulators 0 = stk.m_accumulators 0) ∧
    CacheInv fs ft (stk.evaluate_side fs ft p sel (positions (stk.m_current_idx - 1))
      cache).2 := by
  have hkle : stk.find_last_usable_accumulator fs p sel ≤ stk.m_current_idx - 1 :=
    findLastFrom_le stk fs p sel _
  have hmax : ∀ j, stk.find_last_usable_accumulator fs p sel < j →
      j ≤ stk.m_current_idx - 1 → ¬usableAt stk fs p sel j :=
    fun j h₁ h₂ => findLastFrom_max stk fs p sel _ j h₁ h₂
  have hchain := king_chain fs p sel stk positions hidx hcons
  have hnr : ∀ j, stk.find_last_usable_accumulator fs p sel < j →
      j ≤ stk.m_current_idx - 1 →
      fs.requiresRefresh (stk.m_accumulators j).dirtyPiece p = false := by
    intro j h₁ h₂
    cases hb : fs.requiresRefresh (stk.m_accumulators j).dirtyPiece p
    · rfl
    · exact absurd (Or.inr hb) (hmax j h₁ h₂)
  by_cases hc : ((stk.m_accumulators
      (stk.find_last_usable_accumulator fs p sel)).acc sel).computed p = true
  · have hev : stk.evaluate_side fs ft p sel (positions (stk.m_current_idx - 1)) cache =
        (stk.forward_update_incremental fs ft p sel (positions (stk.m_current_idx - 1))
          (stk.find_last_usable_accumulator fs p sel), cache) := by
      simp only [AccumulatorStack.evaluate_side]
      rw [if_pos hc]
    rw [hev]
    have hFS := forwardSteps_spec fs ft p sel
      ((positions (stk.m_current_idx - 1)).kingSq p) positions
      (stk.m_current_idx - 1 - stk.find_last_usable_accumulator fs p sel)
      stk.m_accumulators (stk.find_last_usable_accumulator fs p sel)
      (hexact _ (by omega) hc)
      (by
        intro j h₁ h₂
        exact ⟨hnr j h₁ (by omega), hcons j (by omega) (by omega)⟩)
      (by
        intro j h₁ h₂
        exact hchain j h₁ (by omega))
    refine ⟨rfl, rfl, fun i => hFS.2.2.1 i, fun i sel₂ hs => hFS.2.2.2.1 i sel₂ hs,
      fun i q hq => hFS.2.2.2.2 i q hq, ?_, ?_, ?_, hcache⟩
    · intro i hi hcomp
      by_cases hik : i ≤ stk.find_last_usable_accumulator fs p sel
      · have hu := hFS.2.1 i (Or.inl hik)
        rw [AccumulatorStack.forward_update_incremental] at hcomp ⊢
        simp only at hcomp ⊢
        rw [hu] at hcomp ⊢
        exact hexact i hi hcomp
      · have := hFS.1 i (by omega) (by omega)
        rw [AccumulatorStack.forward_update_incremental]
        exact this.2
    · by_cases hik : stk.find_last_usable_accumulator fs p sel = stk.m_current_idx - 1
      · have hu := hFS.2.1 (stk.m_current_idx - 1) (Or.inl (by omega))
        rw [AccumulatorStack.forward_update_incremental]
        simp only
        rw [hu, ← hik]
        exact hc
      · have := hFS.1 (stk.m_current_idx - 1) (by omega) (by omega)
        rw [AccumulatorStack.forward_update_incremental]
        exact this.1
    · have hu := hFS.2.1 0 (Or.inl (Nat.zero_le _))
      rw [AccumulatorStack.forward_update_incremental]
      simp only
      rw [hu]
  · have hk1 : 1 ≤ stk.find_last_usable_accumulator fs p sel := by
      rcases Nat.eq_zero_or_pos (stk.find_last_usable_accumulator fs p sel) with h0 | h0
      · rw [h0] at hc
        exact absurd (hroot p) hc
      · exact h0
    have hidx2 : 2 ≤ stk.m_current_idx := by omega
    have hcf : ((stk.m_accumulators
        (stk.find_last_usable_accumulator fs p sel)).acc sel).computed p = false := by
      cases hb : ((stk.m_accumulators
          (stk.find_last_usable_accumulator fs p sel)).acc sel).computed p
      · rfl
      · exact absurd hb hc
    have hev : stk.evaluate_side fs ft p sel (positions (stk.m_current_idx - 1)) cache =
        ({ stk with
            m_accumulators := Function.update stk.m_accumulators (stk.m_current_idx - 1)
              (update_accumulator_refresh_cache fs ft p sel
                (positions (stk.m_current_idx - 1)) stk.latest cache).1
          }.backward_update_incremental fs ft p sel (positions (stk.m_current_idx - 1))
            (stk.find_last_usable_accumulator fs p sel),
         (update_accumulator_refresh_cache fs ft p sel (positions (stk.m_current_idx - 1))
           stk.latest cache).2) := by
      simp only [AccumulatorStack.evaluate_side]
      rw [if_neg hc]
    rw [hev]
    have hrefS := refresh_state_spec fs ft p sel (positions (stk.m_current_idx - 1))
      stk.latest cache (hcache _ _)
    have hrefF := refresh_frame fs ft p sel (positions (stk.m_current_idx - 1))
      stk.latest cache
    have hrefC := refresh_cache_inv fs ft p sel (positions (stk.m_current_idx - 1))
      stk.latest cache hcache hwfcur
    have hacc₂same : Function.update stk.m_accumulators (stk.m_current_idx - 1)
        (update_accumulator_refresh_cache fs ft p sel
          (positions (stk.m_current_idx - 1)) stk.latest cache).1 (stk.m_current_idx - 1)
        = (update_accumulator_refresh_cache fs ft p sel
          (positions (stk.m_current_idx - 1)) stk.latest cache).1 :=
      Function.update_same _ _ _
    have hacc₂ne : ∀ i, i ≠ stk.m_current_idx - 1 →
        Function.update stk.m_accumulators (stk.m_current_idx - 1)
          (update_accumulator_refresh_cache fs ft p sel
            (positions (stk.m_current_idx - 1)) stk.latest cache).1 i
        = stk.m_accumulators i :=
      fun i hi => Function.update_noteq hi _ _
    have hdirty₂ : ∀ i, (Function.update stk.m_accumulators (stk.m_current_idx - 1)
        (update_accumulator_refresh_cache fs ft p sel
          (positions (stk.m_current_idx - 1)) stk.latest cache).1 i).dirtyPiece
        = (stk.m_accumulators i).dirtyPiece := by
      intro i
      by_cases hi : i = stk.m_current_idx - 1
      · subst hi
        rw [hacc₂same]
        exact hrefF.1
      · rw [hacc₂ne i hi]
    have heq : stk.find_last_usable_accumulator fs p sel +
        (stk.m_current_idx - 1 - stk.find_last_usable_accumulator fs p sel) =
        stk.m_current_idx - 1 := by omega
    have hBS := backwardSteps_spec fs ft p sel
      ((positions (stk.m_current_idx - 1)).kingSq p) positions
      (stk.m_current_idx - 1 - stk.find_last_usable_accumulator fs p sel)
      (Function.update stk.m_accumulators (stk.m_current_idx - 1)
        (update_accumulator_refresh_cache fs ft p sel
          (positions (stk.m_current_idx - 1)) stk.latest cache).1)
      (stk.find_last_usable_accumulator fs p sel)
      (by
        rw [heq, hacc₂same]
        exact ⟨fun k => hrefS.2.1 k, fun b => hrefS.2.2 b⟩)
      (by
        intro i h₁ h₂
        rw [hdirty₂ (i + 1)]
        refine ⟨hnr (i + 1) (by omega) (by omega), ?_⟩
        have h₃ := hcons (i + 1) (by omega) (by omega)
        rwa [Nat.add_sub_cancel] at h₃)
      (by
        intro i h₁ h₂
        exact hchain i h₁ (by omega))
    rw [heq] at hBS
    have h21 : stk.m_current_idx - 1 - 1 = stk.m_current_idx - 2 := by omega
    rw [h21] at hBS
    refine ⟨rfl, rfl, ?_, ?_, ?_, ?_, ?_, ?_, hrefC⟩
    · intro i
      rw [AccumulatorStack.backward_update_incremental]
      simp only
      rw [hBS.2.2.1 i, hdirty₂ i]
    · intro i sel₂ hs
      rw [AccumulatorStack.backward_update_incremental]
      simp only
      rw [hBS.2.2.2.1 i sel₂ hs]
      by_cases hi : i = stk.m_current_idx - 1
      · subst hi
        rw [hacc₂same]
        exact hrefF.2.1 sel₂ hs
      · rw [hacc₂ne i hi]
    · intro i q hq
      rw [AccumulatorStack.backward_update_incremental]
      simp only
      have h₁ := hBS.2.2.2.2 i q hq
      by_cases hi : i = stk.m_current_idx - 1
      · subst hi
        rw [hacc₂same] at h₁
        have h₂ := hrefF.2.2.1 q hq
        exact ⟨h₁.1.trans h₂.1, h₁.2.1.trans h₂.2.1, h₁.2.2.trans h₂.2.2⟩
      · rw [hacc₂ne i hi] at h₁
        exact h₁
    · intro i hi hcomp
      rw [AccumulatorStack.backward_update_incremental] at hcomp ⊢
      simp only at hcomp ⊢
      by_cases hik : i < stk.find_last_usable_accumulator fs p sel
      · have hu := hBS.2.1 i (Or.inl hik)
        rw [hu, hacc₂ne i (by omega)] at hcomp ⊢
        exact hexact i hi hcomp
      · by_cases hil : i = stk.m_current_idx - 1
        · subst hil
          have hu := hBS.2.1 (stk.m_current_idx - 1) (Or.inr (by omega))
          rw [hu, hacc₂same]
          exact ⟨fun k => hrefS.2.1 k, fun b => hrefS.2.2 b⟩
        · have := hBS.1 i (by omega) (by omega)
          exact this.2
    · rw [AccumulatorStack.backward_update_incremental]
      simp only
      have hu := hBS.2.1 (stk.m_current_idx - 1) (Or.inr (by omega))
      rw [hu, hacc₂same]
      exact hrefS.1
    · rw [AccumulatorStack.backward_update_incremental]
      simp only
      have hu := hBS.2.1 0 (Or.inl (by omega))
      rw [hu, hacc₂ne 0 (by omega)]

theorem exact_transport {fs : FeatureSet} {ft : FeatureTransformer} {pos : Position}
    {p : Color} {a b : Accumulator}
    (hacc : a.accumulation p = b.accumulation p)
    (hpsqt : a.psqtAccumulation p = b.psqtAccumulation p)
    (h : ExactAt fs ft pos p b) : ExactAt fs ft pos p a :=
  ⟨fun k => by rw [hacc]; exact h.1 k, fun bb => by rw [hpsqt]; exact h.2 bb⟩

theorem eval_step_invariant (fs : FeatureSet) (fts : NetSel → FeatureTransformer)
    (s : SysState) (sel : NetSel) (hinv : StackInv fs fts s) :
    StackInv fs fts (step fs fts s (Op.eval sel)) ∧
    ((step fs fts s (Op.eval sel)).stk.m_current_idx = s.stk.m_current_idx) ∧
    (∀ p, (((step fs fts s (Op.eval sel)).stk.m_accumulators
        (s.stk.m_current_idx - 1)).acc sel).computed p = true ∧
      ExactAt fs (fts sel) (s.positions (s.stk.m_current_idx - 1)) p
        (((step fs fts s (Op.eval sel)).stk.m_accumulators
          (s.stk.m_current_idx - 1)).acc sel)) := by
  obtain ⟨hidx, hroot, hexact, hcons, hwf, hcache⟩ := hinv
  have hW := evaluate_side_invariant fs (fts sel) Color.white sel s.stk (s.caches sel)
    s.positions hidx (hroot sel)
    (fun i hi hc => hexact sel Color.white i hi hc)
    (fun i h₁ h₂ => hcons Color.white i h₁ h₂)
    (hwf _ (by omega)) (hcache sel)
  obtain ⟨hA, hB, hC, hD, hE, hF, hG, hH, hI⟩ := hW
  have hB2 := evaluate_side_invariant fs (fts sel) Color.black sel
    (s.stk.evaluate_side fs (fts sel) Color.white sel
      (s.positions (s.stk.m_current_idx - 1)) (s.caches sel)).1
    (s.stk.evaluate_side fs (fts sel) Color.white sel
      (s.positions (s.stk.m_current_idx - 1)) (s.caches sel)).2
    s.positions (by rw [hA]; exact hidx)
    (by
      intro p₂
      rw [hH]
      exact hroot sel p₂)
    (by
      intro i hi hc
      rw [hA] at hi
      have he := hE i Color.black (by intro h; cases h)
      rw [he.2.2] at hc
      exact exact_transport he.1 he.2.1 (hexact sel Color.black i hi hc))
    (by
      intro i h₁ h₂
      rw [hA] at h₂
      rw [hC i]
      exact hcons Color.black i h₁ h₂)
    (by
      rw [hA]
      exact hwf _ (by omega))
    hI
  rw [hA] at hB2
  obtain ⟨hA₂, hB₂, hC₂, hD₂, hE₂, hF₂, hG₂, hH₂, hI₂⟩ := hB2
  have hstk : (step fs fts s (Op.eval sel)).stk =
      ((s.stk.evaluate_side fs (fts sel) Color.white sel
          (s.positions (s.stk.m_current_idx - 1)) (s.caches sel)).1.evaluate_side fs
        (fts sel) Color.black sel (s.positions (s.stk.m_current_idx - 1))
        (s.stk.evaluate_side fs (fts sel) Color.white sel
          (s.positions (s.stk.m_current_idx - 1)) (s.caches sel)).2).1 := rfl
  have hcaches : (step fs fts s (Op.eval sel)).caches =
      Function.update s.caches sel
        ((s.stk.evaluate_side fs (fts sel) Color.white sel
            (s.positions (s.stk.m_current_idx - 1)) (s.caches sel)).1.evaluate_side fs
          (fts sel) Color.black sel (s.positions (s.stk.m_current_idx - 1))
          (s.stk.evaluate_side fs (fts sel) Color.white sel
            (s.positions (s.stk.m_current_idx - 1)) (s.caches sel)).2).2 := rfl
  have hposs : (step fs fts s (Op.eval sel)).positions = s.positions := rfl
  have hslice : ∀ i p₂,
      (((step fs fts s (Op.eval sel)).stk.m_accumulators i).acc sel).computed p₂ = true →
      i < s.stk.m_current_idx →
      ExactAt fs (fts sel) (s.positions i) p₂
        (((step fs fts s (Op.eval sel)).stk.m_accumulators i).acc sel) := by
    intro i p₂ hc hi
    rw [hstk] at hc ⊢
    cases p₂ with
    | white =>
      have he := hE₂ i Color.white (by intro h; cases h)
      rw [he.2.2] at hc
      exact exact_transport he.1 he.2.1 (hF i hi hc)
    | black => exact hF₂ i hi hc
  refine ⟨⟨?_, ?_, ?_, ?_, ?_, ?_⟩, ?_, ?_⟩
  · rw [hstk, hA₂]
    exact hidx
  · intro sel₂ p₂
    rw [hstk]
    by_cases hs : sel₂ = sel
    · subst hs
      rw [hH₂, hH]
      exact hroot sel₂ p₂
    · rw [hD₂ 0 sel₂ hs, hD 0 sel₂ hs]
      exact hroot sel₂ p₂
  · intro sel₂ p₂ i hi hc
    rw [hstk, hA₂] at hi
    by_cases hs : sel₂ = sel
    · subst hs
      exact hslice i p₂ hc hi
    · rw [hstk, hD₂ i sel₂ hs, hD i sel₂ hs] at hc ⊢
      exact hexact sel₂ p₂ i hi hc
  · intro p₂ i h₁ h₂
    rw [hstk, hA₂] at h₂
    rw [hstk, hC₂ i, hC i, hposs]
    exact hcons p₂ i h₁ h₂
  · intro i hi
    rw [hstk, hA₂] at hi
    rw [hposs]
    exact hwf i hi
  · intro sel₂
    rw [hcaches]
    by_cases hs : sel₂ = sel
    · subst hs
      rw [Function.update_same]
      exact hI₂
    · rw [Function.update_noteq hs]
      exact hcache sel₂
  · rw [hstk, hA₂]
  · intro p₂
    cases p₂ with
    | white =>
      have he := hE₂ (s.stk.m_current_idx - 1) Color.white (by intro h; cases h)
      constructor
      · rw [hstk, he.2.2]
        exact hG
      · rw [hstk]
        exact exact_transport he.1 he.2.1
          (hF (s.stk.m_current_idx - 1) (by omega) hG)
    | black =>
      constructor
      · rw [hstk]
        exact hG₂
      · rw [hstk]
        exact hF₂ (s.stk.m_current_idx - 1) (by omega) hG₂

theorem reset_acc_computed (s : AccumulatorState) (dp : DirtyPiece) (sel : NetSel)
    (p : Color) : ((s.reset dp).acc sel).computed p = false := by
  cases sel <;> rfl

theorem reset_acc_vectors (s : AccumulatorState) (dp : DirtyPiece) (sel : NetSel) :
    ((s.reset dp).acc sel).accumulation = (s.acc sel).accumulation ∧
    ((s.reset dp).acc sel).psqtAccumulation = (s.acc sel).psqtAccumulation := by
  cases sel <;> exact ⟨rfl, rfl⟩

theorem push_step_invariant (fs : FeatureSet) (fts : NetSel → FeatureTransformer)
    (s : SysState) (dp : DirtyPiece) (newPos : Position) (hinv : StackInv fs fts s)
    (hval : ValidOp fs s (Op.push dp newPos)) :
    StackInv fs fts (step fs fts s (Op.push dp newPos)) := by
  obtain ⟨hidx, hroot, hexact, hcons, hwf, hcache⟩ := hinv
  obtain ⟨hcap, hwfn, hconsn⟩ := hval
  have haccne : ∀ i, i ≠ s.stk.m_current_idx →
      (step fs fts s (Op.push dp newPos)).stk.m_accumulators i = s.stk.m_accumulators i :=
    fun i hi => Function.update_noteq hi _ _
  have haccsame : (step fs fts s (Op.push dp newPos)).stk.m_accumulators
      s.stk.m_current_idx = (s.stk.m_accumulators s.stk.m_current_idx).reset dp :=
    Function.update_same _ _ _
  have hposne : ∀ i, i ≠ s.stk.m_current_idx →
      (step fs fts s (Op.push dp newPos)).positions i = s.positions i :=
    fun i hi => Function.update_noteq hi _ _
  have hpossame : (step fs fts s (Op.push dp newPos)).positions s.stk.m_current_idx
      = newPos := Function.update_same _ _ _
  have hidx' : (step fs fts s (Op.push dp newPos)).stk.m_current_idx
      = s.stk.m_current_idx + 1 := rfl
  refine ⟨by rw [hidx']; omega, ?_, ?_, ?_, ?_, fun sel => hcache sel⟩
  · intro sel p
    rw [haccne 0 (by omega)]
    exact hroot sel p
  · intro sel p i hi hc
    rw [hidx'] at hi
    by_cases hie : i = s.stk.m_current_idx
    · subst hie
      rw [haccsame, reset_acc_computed] at hc
      exact absurd hc (by simp)
    · rw [haccne i hie] at hc ⊢
      rw [hposne i hie]
      exact hexact sel p i (by omega) hc
  · intro p i h₁ h₂
    rw [hidx'] at h₂
    by_cases hie : i = s.stk.m_current_idx
    · subst hie
      rw [haccsame, hposne (s.stk.m_current_idx - 1) (by omega), hpossame]
      show DeltaConsistent fs p dp (s.positions (s.stk.m_current_idx - 1)) newPos
      exact hconsn p
    · rw [haccne i hie, hposne i hie, hposne (i - 1) (by omega)]
      exact hcons p i h₁ (by omega)
  · intro i hi
    rw [hidx'] at hi
    by_cases hie : i = s.stk.m_current_idx
    · subst hie
      rw [hpossame]
      exact hwfn
    · rw [hposne i hie]
      exact hwf i (by omega)

theorem pop_step_invariant (fs : FeatureSet) (fts : NetSel → FeatureTransformer)
    (s : SysState) (hinv : StackInv fs fts s) (hval : ValidOp fs s Op.pop) :
    StackInv fs fts (step fs fts s Op.pop) := by
  obtain ⟨hidx, hroot, hexact, hcons, hwf, hcache⟩ := hinv
  have hval' : 1 < s.stk.m_current_idx := hval
  have hidx' : (step fs fts s Op.pop).stk.m_current_idx = s.stk.m_current_idx - 1 := rfl
  refine ⟨by rw [hidx']; omega, fun sel p => hroot sel p, ?_, ?_, ?_,
    fun sel => hcache sel⟩
  · intro sel p i hi hc
    rw [hidx'] at hi
    exact hexact sel p i (by omega) hc
  · intro p i h₁ h₂
    rw [hidx'] at h₂
    exact hcons p i h₁ (by omega)
  · intro i hi
    rw [hidx'] at hi
    exact hwf i (by omega)

theorem runOps_invariant (fs : FeatureSet) (fts : NetSel → FeatureTransformer) :
    ∀ (ops : List Op) (s : SysState), StackInv fs fts s → ValidOps fs fts s ops →
      StackInv fs fts (runOps fs fts s ops) := by
  intro ops
  induction ops with
  | nil => intro s h _; exact h
  | cons op rest ih =>
    intro s h hv
    refine ih (step fs fts s op) ?_ hv.2
    cases op with
    | push dp newPos => exact push_step_invariant fs fts s dp newPos h hv.1
    | pop => exact pop_step_invariant fs fts s h hv.1
    | eval sel => exact (eval_step_invariant fs fts s sel h).1

theorem reset_invariant (fs : FeatureSet) (fts : NetSel → FeatureTransformer)
    (stk₀ : AccumulatorStack) (caches₀ : NetSel → Cache) (root : Position)
    (hwf : root.WellFormed)
    (hcache : ∀ sel, CacheInv fs (fts sel) (caches₀ sel)) :
    StackInv fs fts (resetSys fs fts stk₀ caches₀ root) := by
  set r₁ := update_accumulator_refresh_cache fs (fts NetSel.big) Color.white NetSel.big
    root (stk₀.m_accumulators 0) (caches₀ NetSel.big) with hr₁
  set r₂ := update_accumulator_refresh_cache fs (fts NetSel.big) Color.black NetSel.big
    root r₁.1 r₁.2 with hr₂
  set r₃ := update_accumulator_refresh_cache fs (fts NetSel.small) Color.white
    NetSel.small root r₂.1 (caches₀ NetSel.small) with hr₃
  set r₄ := update_accumulator_refresh_cache fs (fts NetSel.small) Color.black
    NetSel.small root r₃.1 r₃.2 with hr₄
  have hC₁ : CacheInv fs (fts NetSel.big) r₁.2 :=
    refresh_cache_inv fs (fts NetSel.big) Color.white NetSel.big root
      (stk₀.m_accumulators 0) (caches₀ NetSel.big) (hcache NetSel.big) hwf
  have hC₂ : CacheInv fs (fts NetSel.big) r₂.2 :=
    refresh_cache_inv fs (fts NetSel.big) Color.black NetSel.big root r₁.1 r₁.2 hC₁ hwf
  have hC₃ : CacheInv fs (fts NetSel.small) r₃.2 :=
    refresh_cache_inv fs (fts NetSel.small) Color.white NetSel.small root r₂.1
      (caches₀ NetSel.small) (hcache NetSel.small) hwf
  have hC₄ : CacheInv fs (fts NetSel.small) r₄.2 :=
    refresh_cache_inv fs (fts NetSel.small) Color.black NetSel.small root r₃.1 r₃.2
      hC₃ hwf
  have hS₁ := refresh_state_spec fs (fts NetSel.big) Color.white NetSel.big root
    (stk₀.m_accumulators 0) (caches₀ NetSel.big) (hcache NetSel.big _ _)
  have hS₂ := refresh_state_spec fs (fts NetSel.big) Color.black NetSel.big root r₁.1
    r₁.2 (hC₁ _ _)
  have hS₃ := refresh_state_spec fs (fts NetSel.small) Color.white NetSel.small root
    r₂.1 (caches₀ NetSel.small) (hcache NetSel.small _ _)
  have hS₄ := refresh_state_spec fs (fts NetSel.small) Color.black NetSel.small root
    r₃.1 r₃.2 (hC₃ _ _)
  have hF₂ := refresh_frame fs (fts NetSel.big) Color.black NetSel.big root r₁.1 r₁.2
  have hF₃ := refresh_frame fs (fts NetSel.small) Color.white NetSel.small root r₂.1
    (caches₀ NetSel.small)
  have hF₄ := refresh_frame fs (fts NetSel.small) Color.black NetSel.small root r₃.1
    r₃.2
  have hbig : r₄.1.acc NetSel.big = r₂.1.acc NetSel.big := by
    rw [hF₄.2.1 NetSel.big (by intro h; cases h), hF₃.2.1 NetSel.big (by intro h; cases h)]
  have hBW : (r₄.1.acc NetSel.big).computed Color.white = true ∧
      ExactAt fs (fts NetSel.big) root Color.white (r₄.1.acc NetSel.big) := by
    rw [hbig]
    have hq := hF₂.2.2.1 Color.white (by intro h; cases h)
    refine ⟨by rw [hq.2.2]; exact hS₁.1, exact_transport hq.1 hq.2.1 ⟨hS₁.2.1, hS₁.2.2⟩⟩
  have hBB : (r₄.1.acc NetSel.big).computed Color.black = true ∧
      ExactAt fs (fts NetSel.big) root Color.black (r₄.1.acc NetSel.big) := by
    rw [hbig]
    exact ⟨hS₂.1, hS₂.2.1, hS₂.2.2⟩
  have hSW : (r₄.1.acc NetSel.small).computed Color.white = true ∧
      ExactAt fs (fts NetSel.small) root Color.white (r₄.1.acc NetSel.small) := by
    have hq := hF₄.2.2.1 Color.white (by intro h; cases h)
    refine ⟨by rw [hq.2.2]; exact hS₃.1, exact_transport hq.1 hq.2.1 ⟨hS₃.2.1, hS₃.2.2⟩⟩
  have hSB : (r₄.1.acc NetSel.small).computed Color.black = true ∧
      ExactAt fs (fts NetSel.small) root Color.black (r₄.1.acc NetSel.small) := by
    exact ⟨hS₄.1, hS₄.2.1, hS₄.2.2⟩
  have hacc0 : (resetSys fs fts stk₀ caches₀ root).stk.m_accumulators 0 = r₄.1 := by
    show Function.update stk₀.m_accumulators 0 r₄.1 0 = r₄.1
    exact Function.update_same _ _ _
  have hidx1 : (resetSys fs fts stk₀ caches₀ root).stk.m_current_idx = 1 := rfl
  have hpos : ∀ i, (resetSys fs fts stk₀ caches₀ root).positions i = root := fun _ => rfl
  refine ⟨by rw [hidx1], ?_, ?_, ?_, ?_, ?_⟩
  · intro sel p
    rw [hacc0]
    cases sel <;> cases p
    · exact hBW.1
    · exact hBB.1
    · exact hSW.1
    · exact hSB.1
  · intro sel p i hi hc
    rw [hidx1] at hi
    have hi0 : i = 0 := by omega
    subst hi0
    rw [hacc0] at hc ⊢
    rw [hpos 0]
    cases sel <;> cases p
    · exact hBW.2
    · exact hBB.2
    · exact hSW.2
    · exact hSB.2
  · intro p i h₁ h₂
    rw [hidx1] at h₂
    omega
  · intro i hi
    rw [hpos i]
    exact hwf
  · intro sel
    cases sel
    · exact hC₂
    · exact hC₄

/-- C2: after the refresh kernel runs, the state's dense vector satisfies
`state.dense[p][k] = Σ_{f active in pos from p} ft.weights[f, k]`, and the
PSQT vector equals the sum of psqtWeights over active features; the
removed/added delta is computed per (color, pieceType) pair as the
bitboard set-differences between the cache entry's stored bitboards and
`pos.pieces(c, t)` (definitions `refreshRemoved` / `refreshAdded`). -/
theorem refresh_computes_full_transform (fs : FeatureSet) (ft : FeatureTransformer)
    (p : Color) (sel : NetSel) (pos : Position) (st : AccumulatorState) (cache : Cache)
    (hent : EntryInv fs ft (pos.kingSq p) p (cache (pos.kingSq p) p)) :
    (∀ k, ((update_accumulator_refresh_cache fs ft p sel pos st cache).1.acc
        sel).accumulation p k =
      ((activeFeatures fs pos p (pos.kingSq p)).map (fun f => ft.weights f k)).sum) ∧
    (∀ b, ((update_accumulator_refresh_cache fs ft p sel pos st cache).1.acc
        sel).psqtAccumulation p b =
      ((activeFeatures fs pos p (pos.kingSq p)).map (fun f => ft.psqtWeights f b)).sum) := by
  have h := refresh_state_spec fs ft p sel pos st cache hent
  exact ⟨h.2.1, h.2.2⟩

/-- C6: after every refresh-kernel call for a (kingSquare, perspective)
entry, the entry's byColorBB and byTypeBB equal `pos.pieces(·)`, its
snapshot satisfies the cache-entry invariant again (it equals the full
transform of the board stored in the entry), and the global cache
invariant is preserved by every operation of the subsystem. -/
theorem refresh_cache_entry_consistency (fs : FeatureSet) (ft : FeatureTransformer)
    (p : Color) (sel : NetSel) (pos : Position) (st : AccumulatorState) (cache : Cache)
    (hcache : CacheInv fs ft cache) (hwf : pos.WellFormed) :
    (((update_accumulator_refresh_cache fs ft p sel pos st cache).2 (pos.kingSq p)
      p).byColorBB = fun c => pos.piecesColor c) ∧
    (((update_accumulator_refresh_cache fs ft p sel pos st cache).2 (pos.kingSq p)
      p).byTypeBB = fun t => pos.piecesType t) ∧
    EntryInv fs ft (pos.kingSq p) p
      ((update_accumulator_refresh_cache fs ft p sel pos st cache).2 (pos.kingSq p) p) ∧
    CacheInv fs ft (update_accumulator_refresh_cache fs ft p sel pos st cache).2 ∧
    (∀ (fts : NetSel → FeatureTransformer) (s : SysState) (op : Op),
      1 ≤ s.stk.m_current_idx →
      (∀ i, i < s.stk.m_current_idx → (s.positions i).WellFormed) →
      (∀ sel₂, CacheInv fs (fts sel₂) (s.caches sel₂)) →
      ∀ sel₂, CacheInv fs (fts sel₂) ((step fs fts s op).caches sel₂)) := by
  have hif : (update_accumulator_refresh_cache fs ft p sel pos st cache).2 (pos.kingSq p)
      p = { accumulation := fun k => scalarRefreshApply ft
              (refreshRemoved fs p (pos.kingSq p) (cache (pos.kingSq p) p) pos)
              (refreshAdded fs p (pos.kingSq p) (cache (pos.kingSq p) p) pos) k
              ((cache (pos.kingSq p) p).accumulation k)
            psqtAccumulation := fun b => scalarRefreshApplyPsqt ft
              (refreshRemoved fs p (pos.kingSq p) (cache (pos.kingSq p) p) pos)
              (refreshAdded fs p (pos.kingSq p) (cache (pos.kingSq p) p) pos) b
              ((cache (pos.kingSq p) p).psqtAccumulation b)
            byColorBB := fun c => pos.piecesColor c
            byTypeBB := fun t => pos.piecesType t } := by
    simp only [update_accumulator_refresh_cache, and_self, if_true]
  refine ⟨by rw [hif], by rw [hif],
    refresh_entry_inv fs ft p sel pos st cache (hcache _ _) hwf,
    refresh_cache_inv fs ft p sel pos st cache hcache hwf,
    fun fts s op h₁ h₂ h₃ => step_cache_inv fs fts s op h₁ h₂ h₃⟩

/-- C1: for every legal (well-formed) root position, every pair of caches
satisfying the cache invariant, and every valid sequence of push/pop
operations (deltas consistent with the positions) interleaved with
evaluate calls after reset, each evaluate call leaves the latest
accumulator state byte-exactly equal to a from-scratch refresh of the
current position for each perspective, and its postcondition is that
`states[current_idx - 1]` is COMPUTED for both perspectives of the
selected network. -/
theorem evaluate_matches_from_scratch_refresh (fs : FeatureSet)
    (fts : NetSel → FeatureTransformer) (stk₀ : AccumulatorStack)
    (caches₀ : NetSel → Cache) (root : Position) (ops : List Op) (sel : NetSel)
    (hwf : root.WellFormed)
    (hcaches : ∀ sel₂, CacheInv fs (fts sel₂) (caches₀ sel₂))
    (hops : ValidOps fs fts (resetSys fs fts stk₀ caches₀ root) ops) :
    ∀ p,
      (((step fs fts (runOps fs fts (resetSys fs fts stk₀ caches₀ root) ops)
        (Op.eval sel)).stk.latest.acc sel).computed p = true) ∧
      (∀ k, ((step fs fts (runOps fs fts (resetSys fs fts stk₀ caches₀ root) ops)
          (Op.eval sel)).stk.latest.acc sel).accumulation p k =
        fullAccum fs (fts sel)
          ((runOps fs fts (resetSys fs fts stk₀ caches₀ root) ops).positions
            ((runOps fs fts (resetSys fs fts stk₀ caches₀ root)
              ops).stk.m_current_idx - 1)) p k) ∧
      (∀ b, ((step fs fts (runOps fs fts (resetSys fs fts stk₀ caches₀ root) ops)
          (Op.eval sel)).stk.latest.acc sel).psqtAccumulation p b =
        fullPsqt fs (fts sel)
          ((runOps fs fts (resetSys fs fts stk₀ caches₀ root) ops).positions
            ((runOps fs fts (resetSys fs fts stk₀ caches₀ root)
              ops).stk.m_current_idx - 1)) p b) := by
  intro p
  have hinv₀ := reset_invariant fs fts stk₀ caches₀ root hwf hcaches
  have hinv := runOps_invariant fs fts ops _ hinv₀ hops
  obtain ⟨hinv₂, hidxeq, hlatest⟩ :=
    eval_step_invariant fs fts (runOps fs fts (resetSys fs fts stk₀ caches₀ root) ops)
      sel hinv
  have hlat : (step fs fts (runOps fs fts (resetSys fs fts stk₀ caches₀ root) ops)
      (Op.eval sel)).stk.latest =
      (step fs fts (runOps fs fts (resetSys fs fts stk₀ caches₀ root) ops)
        (Op.eval sel)).stk.m_accumulators
        ((runOps fs fts (resetSys fs fts stk₀ caches₀ root)
          ops).stk.m_current_idx - 1) := by
    rw [AccumulatorStack.latest, hidxeq]
  rw [hlat]
  exact ⟨(hlatest p).1, fun k => (hlatest p).2.1 k, fun b => (hlatest p).2.2 b⟩

/-- C9: after `AccumulatorStack::reset`, the root state `m_accumulators[0]`
is computed for both networks and both perspectives, and this remains
true across every valid sequence of push, pop and evaluate calls (push
only resets `m_accumulators[current_idx]` with `current_idx ≥ 1`, and pop
never brings `current_idx` below 1). -/
theorem root_state_stays_computed (fs : FeatureSet) (fts : NetSel → FeatureTransformer)
    (stk₀ : AccumulatorStack) (caches₀ : NetSel → Cache) (root : Position)
    (ops : List Op) (hwf : root.WellFormed)
    (hcaches : ∀ sel₂, CacheInv fs (fts sel₂) (caches₀ sel₂))
    (hops : ValidOps fs fts (resetSys fs fts stk₀ caches₀ root) ops) :
    1 ≤ (runOps fs fts (resetSys fs fts stk₀ caches₀ root) ops).stk.m_current_idx ∧
    ∀ sel p, (((runOps fs fts (resetSys fs fts stk₀ caches₀ root)
      ops).stk.m_accumulators 0).acc sel).computed p = true := by
  have hinv := runOps_invariant fs fts ops _
    (reset_invariant fs fts stk₀ caches₀ root hwf hcaches) hops
  exact ⟨hinv.1, hinv.2.1⟩

/-- C10: under the stack invariant, whenever `evaluate_side` takes the
refresh-and-backward branch (the accumulator found by
`find_last_usable_accumulator` is not computed for the perspective), the
index handed to `backward_update_incremental` is at least 1 and below
`m_current_idx`, so the descending loop from `m_current_idx - 2` down to
`end` never wraps below zero and its accesses stay within
[end, m_current_idx - 2]. -/
theorem backward_update_end_positive (fs : FeatureSet)
    (fts : NetSel → FeatureTransformer) (s : SysState) (sel : NetSel) (p : Color)
    (hinv : StackInv fs fts s)
    (hb : ((s.stk.m_accumulators (s.stk.find_last_usable_accumulator fs p sel)).acc
      sel).computed p = false) :
    1 ≤ s.stk.find_last_usable_accumulator fs p sel ∧
    s.stk.find_last_usable_accumulator fs p sel < s.stk.m_current_idx := by
  have hroot := hinv.2.1 sel p
  have hidx := hinv.1
  have hle : s.stk.find_last_usable_accumulator fs p sel ≤ s.stk.m_current_idx - 1 :=
    findLastFrom_le s.stk fs p sel _
  constructor
  · rcases Nat.eq_zero_or_pos (s.stk.find_last_usable_accumulator fs p sel) with h0 | h0
    · rw [h0, hroot] at hb
      exact absurd hb (by simp)
    · exact h0
  · omega

/-- C3: for every call to the incremental kernel with valid index
lists — (removed, added) from `append_changed_indices` on the target's
dirty piece going FORWARD, or on the source's dirty piece with the lists
swapped going BACKWARD, with the contractual sizes — the kernel computes
`target.dense[p][k] = source.dense[p][k] + Σ_a w[added_i, k] − Σ_r
w[removed_i, k]`, the analogous PSQT equation, and afterwards sets
`target.computed[p] = true`. -/
theorem incremental_kernel_equation (fs : FeatureSet) (ft : FeatureTransformer)
    (p : Color) (dir : IncUpdateDirection) (sel : NetSel) (ksq : Square)
    (target computed : AccumulatorState)
    (hr : (incLists fs p ksq dir target computed).1.length = 1 ∨
      (incLists fs p ksq dir target computed).1.length = 2)
    (ha : (incLists fs p ksq dir target computed).2.length = 1 ∨
      (incLists fs p ksq dir target computed).2.length = 2)
    (hf : dir = IncUpdateDirection.FORWARD →
      (incLists fs p ksq dir target computed).2.length ≤
        (incLists fs p ksq dir target computed).1.length)
    (hb : dir = IncUpdateDirection.BACKWARD →
      (incLists fs p ksq dir target computed).1.length ≤
        (incLists fs p ksq dir target computed).2.length) :
    (((update_accumulator_incremental fs ft p dir sel ksq target computed).acc sel).computed
      p = true) ∧
    (∀ k, ((update_accumulator_incremental fs ft p dir sel ksq target computed).acc
        sel).accumulation p k =
      (computed.acc sel).accumulation p k +
        ((incLists fs p ksq dir target computed).2.map (fun i => ft.weights i k)).sum -
        ((incLists fs p ksq dir target computed).1.map (fun i => ft.weights i k)).sum) ∧
    (∀ b, ((update_accumulator_incremental fs ft p dir sel ksq target computed).acc
        sel).psqtAccumulation p b =
      (computed.acc sel).psqtAccumulation p b +
        ((incLists fs p ksq dir target computed).2.map (fun i => ft.psqtWeights i b)).sum -
        ((incLists fs p ksq dir target computed).1.map (fun i => ft.psqtWeights i b)).sum) :=
  update_incremental_correct fs ft p dir sel ksq target computed hr ha hf hb

theorem emptyPos_wellFormed : emptyPos.WellFormed := by
  intro c₁ t₁ c₂ t₂ h
  simp [emptyPos]

theorem zeroCache_entryInv : ∀ (ksq : Square) (p : Color),
    EntryInv fsW ftW ksq p (zeroCache ksq p) := by
  intro ksq p
  constructor <;> intro i <;>
    simp [zeroCache, zeroEntry, ftW, entryFeatures, boardFeatures, squareFeatures,
      CacheEntry.board, allColors, allPieceTypes]

theorem zeroCache_inv : ∀ sel, CacheInv fsW (ftsW sel) (cachesW sel) :=
  fun _ ksq p => zeroCache_entryInv ksq p

theorem fullAccum_ftW (pos : Position) (p : Color) (k : ℕ) :
    fullAccum fsW ftW pos p k = 0 := by
  simp [fullAccum, ftW]

theorem fullPsqt_ftW (pos : Position) (p : Color) (b : ℕ) :
    fullPsqt fsW ftW pos p b = 0 := by
  simp [fullPsqt, ftW]

theorem sysW_inv : StackInv fsW ftsW sysW := by
  refine ⟨by norm_num [sysW], ?_, ?_, ?_, ?_, ?_⟩
  · intro sel p
    cases sel <;> rfl
  · intro sel p i hi hc
    by_cases h0 : i = 0
    · subst h0
      have hz : (sysW.stk.m_accumulators 0).acc sel = accZC := by cases sel <;> rfl
      rw [hz]
      exact ⟨fun k => (fullAccum_ftW _ _ _).symm, fun b => (fullPsqt_ftW _ _ _).symm⟩
    · have hz : (sysW.stk.m_accumulators i).acc sel = accZU := by
        show ((if i = 0 then stateC else stateU).acc sel) = accZU
        rw [if_neg h0]
        cases sel <;> rfl
      rw [hz] at hc
      exact absurd hc (by simp [accZU])
  · intro p i h₁ h₂
    have hi1 : i = 1 := by
      have : sysW.stk.m_current_idx = 2 := rfl
      omega
    subst hi1
    intro h
    have hd : (sysW.stk.m_accumulators 1).dirtyPiece = dpRef := rfl
    rw [hd] at h
    simp [fsW, dpRef] at h
  · intro i hi
    exact emptyPos_wellFormed
  · exact zeroCache_inv

theorem evaluate_matches_from_scratch_refresh_witness :
    emptyPos.WellFormed ∧
    (((step fsW ftsW (runOps fsW ftsW (resetSys fsW ftsW stackW cachesW emptyPos)
      [Op.push dpRef emptyPos])
      (Op.eval NetSel.big)).stk.latest.acc NetSel.big).computed Color.white = true) ∧
    ((step fsW ftsW (runOps fsW ftsW (resetSys fsW ftsW stackW cachesW emptyPos)
      [Op.push dpRef emptyPos])
      (Op.eval NetSel.big)).stk.latest.acc NetSel.big).accumulation Color.white 0 =
      fullAccum fsW (ftsW NetSel.big)
        ((runOps fsW ftsW (resetSys fsW ftsW stackW cachesW emptyPos)
          [Op.push dpRef emptyPos]).positions
          ((runOps fsW ftsW (resetSys fsW ftsW stackW cachesW
            emptyPos) [Op.push dpRef emptyPos]).stk.m_current_idx - 1)) Color.white 0 :=
  have hops : ValidOps fsW ftsW (resetSys fsW ftsW stackW cachesW emptyPos)
      [Op.push dpRef emptyPos] :=
    ⟨⟨by decide, emptyPos_wellFormed, fun p h => by simp [fsW, dpRef] at h⟩, trivial⟩
  ⟨emptyPos_wellFormed,
   (evaluate_matches_from_scratch_refresh fsW ftsW stackW cachesW emptyPos
     [Op.push dpRef emptyPos] NetSel.big
     emptyPos_wellFormed zeroCache_inv hops Color.white).1,
   (evaluate_matches_from_scratch_refresh fsW ftsW stackW cachesW emptyPos
     [Op.push dpRef emptyPos] NetSel.big
     emptyPos_wellFormed zeroCache_inv hops Color.white).2.1 0⟩

theorem refresh_computes_full_transform_witness :
    ((update_accumulator_refresh_cache fsW ftW Color.white NetSel.big emptyPos stateC
      zeroCache).1.acc NetSel.big).accumulation Color.white 0 =
      ((activeFeatures fsW emptyPos Color.white (emptyPos.kingSq Color.white)).map
        (fun f => ftW.weights f 0)).sum :=
  (refresh_computes_full_transform fsW ftW Color.white NetSel.big emptyPos stateC
    zeroCache (zeroCache_entryInv _ _)).1 0

theorem incremental_kernel_equation_witness :
    (((update_accumulator_incremental fsW ftW Color.white IncUpdateDirection.FORWARD
      NetSel.big 0 stateU stateC).acc NetSel.big).computed Color.white = true) ∧
    ((update_accumulator_incremental fsW ftW Color.white IncUpdateDirection.FORWARD
      NetSel.big 0 stateU stateC).acc NetSel.big).accumulation Color.white 0 =
      (stateC.acc NetSel.big).accumulation Color.white 0 +
        ((incLists fsW Color.white 0 IncUpdateDirection.FORWARD stateU
          stateC).2.map (fun i => ftW.weights i 0)).sum -
        ((incLists fsW Color.white 0 IncUpdateDirection.FORWARD stateU
          stateC).1.map (fun i => ftW.weights i 0)).sum :=
  have h := incremental_kernel_equation fsW ftW Color.white IncUpdateDirection.FORWARD
    NetSel.big 0 stateU stateC (Or.inl rfl) (Or.inl rfl) (fun _ => le_rfl)
    (fun hc => absurd hc (by decide))
  ⟨h.1, h.2.1 0⟩

theorem incremental_roundtrip_witness :
    ((update_accumulator_incremental fsW ftW Color.white IncUpdateDirection.BACKWARD
      NetSel.big 0 stateC
      (update_accumulator_incremental fsW ftW Color.white IncUpdateDirection.FORWARD
        NetSel.big 0 stateU stateC)).acc NetSel.big).accumulation Color.white 0 =
      (stateC.acc NetSel.big).accumulation Color.white 0 :=
  (incremental_forward_backward_roundtrip fsW ftW Color.white NetSel.big 0 stateC stateU
    stateC (Or.inl rfl) (Or.inl rfl) le_rfl).1 0

theorem refresh_cache_entry_consistency_witness :
    ((update_accumulator_refresh_cache fsW ftW Color.white NetSel.big emptyPos stateC
      zeroCache).2 (emptyPos.kingSq Color.white) Color.white).byColorBB =
      (fun c => emptyPos.piecesColor c) :=
  (refresh_cache_entry_consistency fsW ftW Color.white NetSel.big emptyPos stateC
    zeroCache (fun ksq p => zeroCache_entryInv ksq p) emptyPos_wellFormed).1

theorem root_state_stays_computed_witness :
    1 ≤ (runOps fsW ftsW (resetSys fsW ftsW stackW cachesW
      emptyPos) [Op.push dpRef emptyPos]).stk.m_current_idx ∧
    (((runOps fsW ftsW (resetSys fsW ftsW stackW cachesW
      emptyPos) [Op.push dpRef emptyPos]).stk.m_accumulators 0).acc
      NetSel.big).computed Color.white = true :=
  have hops : ValidOps fsW ftsW (resetSys fsW ftsW stackW cachesW emptyPos)
      [Op.push dpRef emptyPos] :=
    ⟨⟨by decide, emptyPos_wellFormed, fun p h => by simp [fsW, dpRef] at h⟩, trivial⟩
  have h := root_state_stays_computed fsW ftsW stackW cachesW emptyPos
    [Op.push dpRef emptyPos] emptyPos_wellFormed zeroCache_inv hops
  ⟨h.1, h.2 NetSel.big Color.white⟩

theorem backward_update_end_positive_witness :
    (((sysW.stk.m_accumulators (sysW.stk.find_last_usable_accumulator fsW Color.white
      NetSel.big)).acc NetSel.big).computed Color.white = false) ∧
    1 ≤ sysW.stk.find_last_usable_accumulator fsW Color.white NetSel.big ∧
    sysW.stk.find_last_usable_accumulator fsW Color.white NetSel.big <
      sysW.stk.m_current_idx :=
  have hb : ((sysW.stk.m_accumulators (sysW.stk.find_last_usable_accumulator fsW
      Color.white NetSel.big)).acc NetSel.big).computed Color.white = false := by decide
  ⟨hb, backward_update_end_positive fsW ftsW sysW NetSel.big Color.white sysW_inv hb⟩

end StockfishNNUE
